import Mathlib

/-!
Verification of the risk-gated navigation engine of the vacuum-x / snake-shm
repository. The grid-search primitives (`bfs_path`, `flood_fill_count`,
`get_max_reach_move`), the risk assessors, the threshold policies and the
panic state machines of the three scripts are embedded as executable Lean
functions; floating-point SVD entropies are the only quantities modelled as
explicit parameters, since they are products of an iterative numerical
routine. All integer and rational arithmetic of the source is reproduced
exactly over `ℤ` and `ℚ`.
-/

/-! ## Grid basics -/

/-- A grid cell, as the `(x, y)` integer pairs used throughout the source. -/
abbrev Pos := ℤ × ℤ

/-- The four directions, in the fixed order of `Algs.MOVES`. -/
inductive Move
  | UP
  | DOWN
  | LEFT
  | RIGHT
deriving DecidableEq, Repr

open Move

/-- Direction vectors of `Algs.MOVES` / `DIRS`. -/
def delta : Move → ℤ × ℤ
  | UP => (0, -1)
  | DOWN => (0, 1)
  | LEFT => (-1, 0)
  | RIGHT => (1, 0)

/-- Apply a move to a cell. -/
def mv (p : Pos) (m : Move) : Pos := (p.1 + (delta m).1, p.2 + (delta m).2)

/-- The neighbour iteration order of the source: UP, DOWN, LEFT, RIGHT. -/
def MOVES : List Move := [UP, DOWN, LEFT, RIGHT]

/-- `0 <= x < w and 0 <= y < h`, the bounds check of all three scripts. -/
abbrev inBounds (p : Pos) (w h : ℕ) : Prop :=
  0 ≤ p.1 ∧ p.1 < (w : ℤ) ∧ 0 ≤ p.2 ∧ p.2 < (h : ℤ)

/-! ## PathPlanner: `Algs.bfs_path` (snake_shm_v0_3_2.py, lines 47-67) -/

/-- The inner neighbour loop of one BFS expansion: for each move in order,
if the neighbour is in bounds, not an obstacle and not visited, it is
appended to the queue (with the extended path) and marked visited at
enqueue time, exactly as in the source. -/
def expand (c : Pos) (path : List Move) (obs : List Pos) (w h : ℕ) :
    List Move → List (Pos × List Move) → List Pos →
    List (Pos × List Move) × List Pos
  | [], q, vis => (q, vis)
  | m :: ms, q, vis =>
    let n := mv c m
    if inBounds n w h ∧ n ∉ obs ∧ n ∉ vis then
      expand c path obs w h ms (q ++ [(n, path ++ [m])]) (n :: vis)
    else
      expand c path obs w h ms q vis

/-- The BFS loop of `Algs.bfs_path`, returning the whole path variable the
source carries (the source finally returns `path[0] if path else None`).
The fuel argument is a step budget; `2*w*h + 1` always suffices because
`queue length + 2 * (in-bounds unvisited cells)` strictly decreases. -/
def bfsAux (goal : Pos) (obs : List Pos) (w h : ℕ) :
    ℕ → List (Pos × List Move) → List Pos → Option (List Move)
  | 0, _, _ => none
  | _ + 1, [], _ => none
  | fuel + 1, (c, path) :: rest, vis =>
    if c = goal then some path
    else
      let st := expand c path obs w h MOVES rest vis
      bfsAux goal obs w h fuel st.1 st.2

/-- `Algs.bfs_path` up to its final projection: the full shortest path. -/
def bfs_full (start goal : Pos) (obs : List Pos) (w h : ℕ) : Option (List Move) :=
  bfsAux goal obs w h (2 * w * h + 1) [(start, [])] [start]

/-- `Algs.bfs_path`: the first move of the shortest path, `none` when the
path is empty (`start = goal`) or the goal is unreachable
(`return path[0] if path else None`). -/
def bfs_path (start goal : Pos) (obs : List Pos) (w h : ℕ) : Option Move :=
  match bfs_full start goal obs w h with
  | some (m :: _) => some m
  | _ => none

/-! ## PathPlanner: `Algs.flood_fill_count` (lines 69-88) -/

/-- Neighbour loop of one flood-fill expansion (no paths carried). -/
def expandFF (c : Pos) (obs : List Pos) (w h : ℕ) :
    List Move → List Pos → List Pos → List Pos × List Pos
  | [], q, vis => (q, vis)
  | m :: ms, q, vis =>
    let n := mv c m
    if inBounds n w h ∧ n ∉ obs ∧ n ∉ vis then
      expandFF c obs w h ms (q ++ [n]) (n :: vis)
    else
      expandFF c obs w h ms q vis

/-- Flood-fill loop: each pop increments the count, then expands. -/
def ffAux (obs : List Pos) (w h : ℕ) :
    ℕ → List Pos → List Pos → ℕ → ℕ
  | 0, _, _, count => count
  | _ + 1, [], _, count => count
  | fuel + 1, c :: rest, vis, count =>
    let st := expandFF c obs w h MOVES rest vis
    ffAux obs w h fuel st.1 st.2 (count + 1)

/-- `Algs.flood_fill_count`: size of the region reachable from `start`.
Note the start cell is seeded into queue and visited unconditionally, so it
is counted even when it belongs to `obs`. -/
def flood_fill_count (start : Pos) (obs : List Pos) (w h : ℕ) : ℕ :=
  ffAux obs w h (2 * w * h + 1) [start] [start] 0

/-! ## PathPlanner: `Algs.get_max_reach_move` (lines 90-103) -/

/-- The direction loop of `get_max_reach_move`: tracks the best move and the
maximal area (initialised to -1), replacing on strictly larger area only. -/
def maxReachAux (head : Pos) (obs : List Pos) (w h : ℕ) :
    List Move → Option Move → ℤ → Option Move
  | [], best, _ => best
  | m :: ms, best, bestArea =>
    let n := mv head m
    if inBounds n w h ∧ n ∉ obs then
      let area : ℤ := flood_fill_count n obs w h
      if bestArea < area then maxReachAux head obs w h ms (some m) area
      else maxReachAux head obs w h ms best bestArea
    else
      maxReachAux head obs w h ms best bestArea

/-- `Algs.get_max_reach_move`: `none` only when all four neighbours are
blocked or out of bounds. -/
def get_max_reach_move (head : Pos) (obs : List Pos) (w h : ℕ) : Option Move :=
  maxReachAux head obs w h MOVES none (-1)

/-! ## RiskAssessor: `StructGate.analyze_risk` (lines 106-129)

The geometric component divides the second singular value of the centred
body by the first; that ratio comes out of `np.linalg.svd` and is modelled
here as the parameter `e` (it is nonnegative, singular values being
nonnegative and the denominator positive). Everything else is exact. -/

/-- `np.clip(x, lo, hi)` for `lo ≤ hi`. -/
def clip (x lo hi : ℚ) : ℚ := min (max x lo) hi

/-- `StructGate.analyze_risk`, with the SVD ratio `s[1]/(s[0]+1e-8)` as the
parameter `e`. Fewer than 3 body points short-circuit to risk 0. -/
def analyze_risk : List Pos → ℚ → ℕ → ℕ → ℚ
  | [], _, _, _ => 0
  | hd :: tl, e, w, h =>
    if (hd :: tl).length < 3 then 0
    else
      let geom := clip (1 - e * 5) 0 1
      let area : ℚ := flood_fill_count hd (hd :: tl) w h
      let topo := clip (1 - area / max 1 ((hd :: tl).length : ℚ)) 0 1
      (7/10) * topo + (3/10) * geom

/-! ## Snake agent: `BaseAgent.get_action` (lines 194-251)

The returned action is a pure function of the game snapshot (the panic
latch only feeds the episode log, not the action), embedded here with the
SVD ratio `e` as a parameter. -/

/-- Coasean threshold of `BaseAgent`: `RISK_THRESHOLD_BASE +
hunger_ratio * RISK_HUNGER_GAIN` with `hunger_ratio = min(1, hunger/200)`. -/
def snakeBaseThreshold (hunger : ℕ) : ℚ :=
  7/20 + min 1 ((hunger : ℚ) / 200) * (1/2)

/-- The action computed by `BaseAgent.get_action`: goal BFS, then (for the
Coase agent under panic) tail-escape BFS or max-reach move, then the final
`if not action` motor-floor fallback. Returns `none` exactly when the
source returns Python `None`. -/
def get_action_pure (isCoase : Bool) (e : ℚ) :
    List Pos → Pos → ℕ → ℕ → ℕ → Option Move
  | [], _, _, _, _ => none
  | hd :: tl, food, w, h, hunger =>
    let bodyNoTail := (hd :: tl).dropLast
    let action := bfs_path hd food bodyNoTail w h
    let action2 :=
      if isCoase ∧ snakeBaseThreshold hunger ≤ analyze_risk (hd :: tl) e w h then
        match bfs_path hd (List.getLastD tl hd) bodyNoTail w h with
        | some m => some m
        | none => get_max_reach_move hd bodyNoTail w h
      else action
    match action2 with
    | some m => some m
    | none => get_max_reach_move hd bodyNoTail w h

/-! ## Snake panic state machine (lines 216-244) and episode log

The latch is driven by the comparison `risk >= threshold`; risk and
threshold are carried as the rational inputs of each step. -/

/-- Panic latch and episode log of `BaseAgent` (`in_panic`,
`panic_history`). -/
structure SState where
  inPanic : Bool
  history : List ℕ
deriving DecidableEq, Repr

/-- Effect of one `get_action` call on the latch: on `risk >= threshold`
append the current step only when not already in panic, else clear. -/
def snakeStep (k : ℕ) (s : SState) (r th : ℚ) : SState :=
  if th ≤ r then
    if s.inPanic then ⟨true, s.history⟩ else ⟨true, s.history ++ [k]⟩
  else ⟨false, s.history⟩

/-- Run the snake latch over a trace of per-step (risk, threshold) pairs,
`k` being `game.steps_total` at the first call. -/
def snakeRunPanic : ℕ → SState → List (ℚ × ℚ) → SState
  | _, s, [] => s
  | k, s, (r, th) :: rest => snakeRunPanic (k + 1) (snakeStep k s r th) rest

/-- Number of not-in-panic → in-panic transitions along a trace. -/
def snakeEnters : Bool → List (ℚ × ℚ) → ℕ
  | _, [] => 0
  | prev, (r, th) :: rest =>
    (if th ≤ r ∧ prev = false then 1 else 0) + snakeEnters (th ≤ r : Bool) rest

/-! ## Vacuum-X v0.3: thresholds, escape (vacuum_x_v03.py) -/

/-- `AgentB_StructGate._dynamic_thresholds` (lines 321-330): panic and
battery thresholds with their `np.clip` bounds. -/
def dynamicThresholds (lpi battery : ℚ) : ℚ × ℚ :=
  let batRatio := battery / 60
  let batteryPressure := 1 - batRatio
  let panicTh := clip (4/5 - lpi * (2/5) - (1/4) * batteryPressure) (1/5) (19/20)
  let batTh := clip (20 + lpi * 20) 5 59
  (panicTh, batTh)

/-- `StructGate.panic` of v0.3 (lines 225-246): zero until the 10-slot
window is full, else the clipped entropy map; `e` is the SVD ratio. -/
def v03Panic (hist : List Pos) (e : ℚ) : ℚ :=
  if hist.length < 10 then 0
  else clip (1 - min (e * 5) 1) 0 1

/-- The cleaning-robot world as read by the decision code: dimensions,
obstacle cells, agent position. -/
structure VWorld where
  w : ℕ
  h : ℕ
  obstacles : List Pos
  pos : Pos

/-- `VacuumWorld.is_free`. -/
abbrev vIsFree (world : VWorld) (p : Pos) : Prop :=
  inBounds p world.w world.h ∧ p ∉ world.obstacles

/-- `local_reachable_count` (lines 159-176): budgeted BFS, at most 30 pops,
returning the visited-set size. The neighbour admission condition is the
same as in the flood fill, so the expansion helper is shared. -/
def localReachAux (world : VWorld) : ℕ → List Pos → List Pos → List Pos
  | _, [], vis => vis
  | 0, _ :: _, vis => vis
  | budget + 1, c :: rest, vis =>
    let st := expandFF c world.obstacles world.w world.h MOVES rest vis
    localReachAux world budget st.1 st.2

/-- `local_reachable_count`: `len(vis)` after the budgeted BFS. -/
def local_reachable_count (world : VWorld) (start : Pos) : ℕ :=
  (localReachAux world 30 [start] [start]).length

/-- Action type of the v0.3 robot: a direction or the explicit no-op. -/
inductive VAct
  | act (m : Move)
  | STAY
deriving DecidableEq, Repr

/-- Direction loop of `choose_escape_action` (lines 179-196): skip blocked
neighbours, score the rest by `local_reachable_count`, keep the strictly
best (first seen wins ties). -/
def escAux (world : VWorld) : List Move → Option Move → ℤ → Option Move
  | [], best, _ => best
  | m :: ms, best, bestScore =>
    let n := mv world.pos m
    if vIsFree world n then
      let score : ℤ := local_reachable_count world n
      if bestScore < score then escAux world ms (some m) score
      else escAux world ms best bestScore
    else
      escAux world ms best bestScore

/-- `choose_escape_action`: the best direction, or STAY when boxed in. -/
def choose_escape_action (world : VWorld) : VAct :=
  match escAux world MOVES none (-1) with
  | some m => VAct.act m
  | none => VAct.STAY

/-! ## Vacuum-X v0.3 agent state machine (vacuum_x_v03.py, lines 295-398)

`AgentB_StructGate.act` is embedded as a step function on the agent state.
The per-step inputs are the SVD panic value `d_t` (a float product of
`StructGate.panic`, carried as the parameter `r`), the battery reading and
the at-dock flag; `k` is the driver counter `t` passed in `state_cache`.
The rescue accounting runs before the mode machine, the trigger requires
the cooldown to have elapsed, and the escape timer is decremented in the
ESCAPE action branch, exactly as in the source. -/

/-- Behavioural modes of `AgentB_StructGate`. -/
inductive BMode
  | NORMAL
  | ESCAPE
  | SURVIVAL
deriving DecidableEq, Repr

/-- The mutable state of `AgentB_StructGate` (plus its `LPIMonitor`) that
`act` reads and writes; `pending_rescue` stores the start step and start
risk of the single pending episode. -/
structure BState where
  H : ℚ
  lpi : ℚ
  mode : BMode
  escape_timer : ℤ
  cooldown : ℕ
  panic_events : ℕ
  panic_saved : ℕ
  risk_drop_events : ℕ
  risk_drop_success : ℕ
  pending_rescue : Option (ℕ × ℚ)
deriving DecidableEq, Repr

/-- Per-step inputs of `AgentB_StructGate.act`. -/
structure BInput where
  r : ℚ
  battery : ℚ
  isSafe : Bool
deriving DecidableEq, Repr

/-- Initial `AgentB_StructGate` state. -/
def bInit : BState := ⟨1, 0, BMode.NORMAL, 0, 0, 0, 0, 0, 0, none⟩

/-- `LPIMonitor.update` of v0.3 (lines 252-272): health decays by
`STEP_DECAY + COLLAPSE_DECAY * d_t`, recovers by `RECOVERY_GAIN` at the
dock, is clipped into [0, 1]; only damage feeds the smoothed LPI with
`DAMAGE_GAIN = 2` and inertia 0.75. Returns the new `(H, lpi)`. -/
def v03LpiUpdate (H lpi r : ℚ) (isSafe : Bool) : ℚ × ℚ :=
  let deltaH := -(1/1000) - (1/25) * r + (if isSafe then (3/50 : ℚ) else 0)
  let H2 := clip (H + deltaH) 0 1
  let damage := max 0 (H - H2)
  (H2, (3/4) * lpi + (1/4) * (2 * damage))

/-- One `AgentB_StructGate.act` call (lines 332-398): LPI update, dynamic
thresholds, then the rescue-window check (at `t - pending >= 12`, counting
a risk-drop success on a 0.15 margin and marking the episode saved), then
the mode machine: cooldown decrement, battery survival, the
NORMAL-with-elapsed-cooldown panic trigger (which starts the escape burst,
counts the event and overwrites the pending slot), the escape-timer
release, and the timer decrement of the ESCAPE action branch. -/
def actStep (k : ℕ) (s : BState) (i : BInput) : BState :=
  let hl := v03LpiUpdate s.H s.lpi i.r i.isSafe
  let th := dynamicThresholds hl.2 i.battery
  let acc : ℕ × ℕ × ℕ × Option (ℕ × ℚ) :=
    match s.pending_rescue with
    | some pr =>
      if pr.1 + 12 ≤ k then
        (s.panic_saved + 1, s.risk_drop_events + 1,
          s.risk_drop_success + (if i.r < pr.2 - 3/20 then 1 else 0), none)
      else (s.panic_saved, s.risk_drop_events, s.risk_drop_success, some pr)
    | none => (s.panic_saved, s.risk_drop_events, s.risk_drop_success, none)
  let cd1 := if 0 < s.cooldown then s.cooldown - 1 else s.cooldown
  let tm2 := if i.battery < th.2 then BMode.SURVIVAL else s.mode
  let tep : BMode × ℤ × ℕ × ℕ × Option (ℕ × ℚ) :=
    if tm2 = BMode.NORMAL ∧ cd1 = 0 ∧ th.1 ≤ i.r then
      (BMode.ESCAPE, 4, 6, s.panic_events + 1, some (k, i.r))
    else (tm2, s.escape_timer, cd1, s.panic_events, acc.2.2.2)
  let tm4 := if s.mode = BMode.ESCAPE ∧ tep.2.1 ≤ 0 then BMode.NORMAL else tep.1
  let timerF := if tm4 = BMode.ESCAPE then tep.2.1 - 1 else tep.2.1
  ⟨hl.1, hl.2, tm4, timerF, tep.2.2.1, tep.2.2.2.1, acc.1, acc.2.1, acc.2.2.1,
    tep.2.2.2.2⟩

/-- Run `act` over a trace of inputs, `k` the counter of the first call. -/
def v03Run : ℕ → BState → List BInput → BState
  | _, s, [] => s
  | k, s, i :: rest => v03Run (k + 1) (actStep k s i) rest

/-- Number of steps of a v0.3 run entering ESCAPE from NORMAL. -/
def v03Enters : ℕ → BState → List BInput → ℕ
  | _, _, [] => 0
  | k, s, i :: rest =>
    let s2 := actStep k s i
    (if s.mode = BMode.NORMAL ∧ s2.mode = BMode.ESCAPE then 1 else 0) +
      v03Enters (k + 1) s2 rest

/-- End-of-run rescue accounting of the snake driver
(snake_shm_v0_3_2.py, lines 270-274): the number of recorded episode
starts `p` with `game.steps_total - p >= RESCUE_WINDOW = 20`. -/
def rescue_count (history : List ℕ) (finalSteps : ℕ) : ℕ :=
  (history.filter (fun p => decide (p + 20 ≤ finalSteps))).length

/-! ## Coase frontier agent (vacuum_x_coase_frontier.py)

`CoaseAgent.choose` is embedded as a step function on the agent state; the
per-step inputs are the SVD risk `r` (a float product, carried as a
parameter), the battery reading and the termination flag `world.done()`
(always false at call sites, since the driver only calls `choose` on live
worlds). `k` is `world.steps` at the call. -/

/-- `StructGate.risk` of the frontier script (lines 96-108): zero below 5
history points (the window capacity is 10), else `1 - min(e*5, 1)`. -/
def frontierRisk (hist : List Pos) (e : ℚ) : ℚ :=
  if hist.length < 5 then 0 else 1 - min (e * 5) 1

/-- `LPIMonitor.update` of the frontier script (lines 111-125), with
`forced=False` as at its only call site: returns the new `(H, LPI)`. -/
def lpiUpdate (H lpi r : ℚ) : ℚ × ℚ :=
  let damage := 1/1000 + (1/20) * r
  let H2 := max 0 (H - damage)
  let dH := max 0 (H - H2)
  (H2, (3/4) * lpi + (1/4) * (r + dH))

/-- Frontier panic threshold (lines 150-154):
`BASE_PANIC_TH - α·GAIN_PANIC·lpi - α·GAIN_BAT_PRESSURE·bat_ratio`,
compared unclamped. -/
def frontierPanicTh (alpha lpi battery : ℚ) : ℚ :=
  4/5 - alpha * (2/5) * lpi - alpha * (1/4) * (1 - battery / 60)

/-- Frontier battery threshold (line 155): `BASE_LOW_BAT + α·GAIN_BAT·lpi`,
compared unclamped. -/
def frontierLowBatTh (alpha lpi : ℚ) : ℚ := 20 + alpha * 20 * lpi

/-- Behavioural modes of `CoaseAgent`. -/
inductive FMode
  | NORMAL
  | PANIC
  | SURVIVAL
deriving DecidableEq, Repr

/-- The mutable state of `CoaseAgent` that `choose` reads and writes. -/
structure FState where
  H : ℚ
  lpi : ℚ
  mode : FMode
  panic_events : ℕ
  panic_saved : ℕ
  last_panic_step : Option ℕ
deriving DecidableEq, Repr

/-- Per-step inputs of `CoaseAgent.choose`. -/
structure FInput where
  r : ℚ
  battery : ℚ
  isDone : Bool
deriving DecidableEq, Repr

/-- Initial `CoaseAgent` state. -/
def fInit : FState :=
  ⟨1, 0, FMode.NORMAL, 0, 0, none⟩

/-- One `CoaseAgent.choose` call (lines 143-179): LPI update, threshold
computation, mode machine (battery first, then `r > panic_th`, counting an
event on every entry into PANIC from a different mode), then the rescue
accounting at exactly `RESCUE_WINDOW = 12` steps after the recorded start,
clearing the single pending slot. -/
def chooseStep (alpha : ℚ) (k : ℕ) (s : FState) (i : FInput) : FState :=
  let hl := lpiUpdate s.H s.lpi i.r
  let pTh := frontierPanicTh alpha hl.2 i.battery
  let bTh := frontierLowBatTh alpha hl.2
  let mel : FMode × ℕ × Option ℕ :=
    if i.battery < bTh then (FMode.SURVIVAL, s.panic_events, s.last_panic_step)
    else if pTh < i.r then
      if s.mode = FMode.PANIC then (FMode.PANIC, s.panic_events, s.last_panic_step)
      else (FMode.PANIC, s.panic_events + 1, some k)
    else (FMode.NORMAL, s.panic_events, s.last_panic_step)
  let sl : ℕ × Option ℕ :=
    match mel.2.2 with
    | some t0 =>
      if k = t0 + 12 then
        (if i.isDone then s.panic_saved else s.panic_saved + 1, none)
      else (s.panic_saved, some t0)
    | none => (s.panic_saved, none)
  ⟨hl.1, hl.2, mel.1, mel.2.1, sl.1, sl.2⟩

/-- Run `choose` over a trace of inputs, `k` the step of the first call. -/
def frontierRun (alpha : ℚ) : ℕ → FState → List FInput → FState
  | _, s, [] => s
  | k, s, i :: rest => frontierRun alpha (k + 1) (chooseStep alpha k s i) rest

/-- Number of steps of a run entering PANIC from a non-PANIC mode. -/
def frontierEnters (alpha : ℚ) : ℕ → FState → List FInput → ℕ
  | _, _, [] => 0
  | k, s, i :: rest =>
    let s2 := chooseStep alpha k s i
    (if s.mode ≠ FMode.PANIC ∧ s2.mode = FMode.PANIC then 1 else 0) +
      frontierEnters alpha (k + 1) s2 rest

/-- Number of steps of a run entering PANIC from NORMAL specifically. -/
def frontierNormalEnters (alpha : ℚ) : ℕ → FState → List FInput → ℕ
  | _, _, [] => 0
  | k, s, i :: rest =>
    let s2 := chooseStep alpha k s i
    (if s.mode = FMode.NORMAL ∧ s2.mode = FMode.PANIC then 1 else 0) +
      frontierNormalEnters alpha (k + 1) s2 rest

/-! ## Sweep agent threshold (snake_shm_v0_3_4.py, lines 67-77) -/

/-- `hunger_ratio = min(1.0, hunger / MAX_STEPS_WITHOUT_FOOD)`. -/
def hungerRatio (hunger : ℕ) : ℚ := min 1 ((hunger : ℚ) / 200)

/-- `SweepAgent` pricing: `RISK_THRESHOLD_BASE + hunger_ratio *
(RISK_HUNGER_GAIN * alpha)`, compared unclamped against the risk. -/
def sweepThreshold (alpha : ℚ) (hunger : ℕ) : ℚ :=
  7/20 + hungerRatio hunger * ((1/2) * alpha)

/-! ## Specification-side notions used in theorem statements -/

/-- Manhattan distance between two cells. -/
def manh (a b : Pos) : ℕ := (a.1 - b.1).natAbs + (a.2 - b.2).natAbs

/-- Endpoint of a move list applied from `a`. -/
def follows (a : Pos) : List Move → Pos
  | [] => a
  | m :: ms => follows (mv a m) ms

/-- One grid step into a free in-bounds cell: the edge relation under which
both BFS and the flood fill explore (the source cell is never itself
checked against the obstacle set). -/
def adjFree (obs : List Pos) (w h : ℕ) (a b : Pos) : Prop :=
  (∃ m, b = mv a m) ∧ inBounds b w h ∧ b ∉ obs

/-- The move with the opposite direction vector. -/
def invMove : Move → Move
  | UP => DOWN
  | DOWN => UP
  | LEFT => RIGHT
  | RIGHT => LEFT

/-! ## Concrete traces used as counterexamples and witnesses -/

/-- A 19-step input trace for the frontier agent at alpha = 0 (an element of
its sweep list): risk is 0 while the history holds fewer than 5 points,
exceeds the 0.8 threshold at steps 4 and 6 (a near-straight walk) and stays
below it elsewhere; the battery drains from 60 and the world is never
done. -/
def c1CexInputs : List FInput :=
  [⟨0, 60, false⟩, ⟨0, 59, false⟩, ⟨0, 58, false⟩, ⟨0, 57, false⟩,
   ⟨9/10, 56, false⟩, ⟨1/2, 55, false⟩, ⟨9/10, 54, false⟩,
   ⟨1/2, 53, false⟩, ⟨1/2, 52, false⟩, ⟨1/2, 51, false⟩, ⟨1/2, 50, false⟩,
   ⟨1/2, 49, false⟩, ⟨1/2, 48, false⟩, ⟨1/2, 47, false⟩, ⟨1/2, 46, false⟩,
   ⟨1/2, 45, false⟩, ⟨1/2, 44, false⟩, ⟨1/2, 43, false⟩, ⟨1/2, 42, false⟩]

/-- A frontier agent state with one pending episode started at step 0. -/
def c1State : FState := ⟨0, 0, FMode.NORMAL, 1, 0, some 0⟩

/-- Eleven quiet steps (risk 0, full battery, world alive). -/
def c1Quiet : List FInput :=
  [⟨0, 60, false⟩, ⟨0, 60, false⟩, ⟨0, 60, false⟩, ⟨0, 60, false⟩,
   ⟨0, 60, false⟩, ⟨0, 60, false⟩, ⟨0, 60, false⟩, ⟨0, 60, false⟩,
   ⟨0, 60, false⟩, ⟨0, 60, false⟩, ⟨0, 60, false⟩]

/-- The quiet input for the evaluation step itself. -/
def c1Last : FInput := ⟨0, 60, false⟩

/-- A v0.3 agent state with one pending episode started at step 0 with
start risk 0.9 and one event on record. -/
def c1BState : BState := ⟨0, 0, BMode.NORMAL, 0, 0, 1, 0, 0, 0, some (0, 9/10)⟩

/-- Eleven quiet v0.3 steps (risk 0, full battery, away from dock). -/
def c1BQuiet : List BInput :=
  [⟨0, 60, false⟩, ⟨0, 60, false⟩, ⟨0, 60, false⟩, ⟨0, 60, false⟩,
   ⟨0, 60, false⟩, ⟨0, 60, false⟩, ⟨0, 60, false⟩, ⟨0, 60, false⟩,
   ⟨0, 60, false⟩, ⟨0, 60, false⟩, ⟨0, 60, false⟩]

/-- The quiet v0.3 input for the evaluation step itself. -/
def c1BLast : BInput := ⟨0, 60, false⟩

/-- A 28-step input trace for the v0.3 agent: risk is 0 while the 10-slot
window fills (steps 0-8), spikes to 0.9 at step 9 (the first full window,
a near-straight walk) and again at step 15 (the first step after the
escape burst and cooldown elapse), and is 0 elsewhere; the battery drains
from 60 and the agent never reaches the dock. -/
def c1V03CexInputs : List BInput :=
  [⟨0, 60, false⟩, ⟨0, 59, false⟩, ⟨0, 58, false⟩, ⟨0, 57, false⟩,
   ⟨0, 56, false⟩, ⟨0, 55, false⟩, ⟨0, 54, false⟩, ⟨0, 53, false⟩,
   ⟨0, 52, false⟩, ⟨9/10, 51, false⟩, ⟨0, 50, false⟩, ⟨0, 49, false⟩,
   ⟨0, 48, false⟩, ⟨0, 47, false⟩, ⟨0, 46, false⟩, ⟨9/10, 45, false⟩,
   ⟨0, 44, false⟩, ⟨0, 43, false⟩, ⟨0, 42, false⟩, ⟨0, 41, false⟩,
   ⟨0, 40, false⟩, ⟨0, 39, false⟩, ⟨0, 38, false⟩, ⟨0, 37, false⟩,
   ⟨0, 36, false⟩, ⟨0, 35, false⟩, ⟨0, 34, false⟩, ⟨0, 33, false⟩]

/-- Two frontier inputs: a low-battery step followed by a recharged
high-risk step; they drive the mode through NORMAL → SURVIVAL → PANIC. -/
def c2Inputs : List FInput := [⟨0, 10, false⟩, ⟨9/10, 60, false⟩]

/-- A five-cell snake whose head (0, 0) is boxed in: both in-bounds
neighbours (1, 0) and (0, 1) lie in the body minus the tail. -/
def c4Snake : List Pos := [(0, 0), (0, 1), (1, 1), (1, 0), (2, 0)]

/-- A tiny world whose agent at (0, 0) has all four neighbours blocked or
out of bounds. -/
def c4World : VWorld := ⟨3, 3, [(1, 0), (0, 1)], (0, 0)⟩

/-- Seven collinear history points, as left by a straight-line walk. -/
def c5Hist : List Pos :=
  [(0, 0), (1, 0), (2, 0), (3, 0), (4, 0), (5, 0), (6, 0)]

/-! ## Finite measures used to justify the step budgets -/

/-- The in-bounds cells of a w-by-h grid, as a finite set. -/
def gridCells (w h : ℕ) : Finset Pos :=
  Finset.Icc (0 : ℤ) ((w : ℤ) - 1) ×ˢ Finset.Icc (0 : ℤ) ((h : ℤ) - 1)

/-- Number of in-bounds cells not yet visited. -/
def unvisCard (w h : ℕ) (vis : List Pos) : ℕ :=
  ((gridCells w h).filter (fun p => p ∉ vis)).card

/-- Termination measure of the flood-fill loop: strictly decreases at each
pop, since a pop removes one queue entry and adds k entries while visiting
k new in-bounds cells. -/
def ffMeasure (w h : ℕ) (q vis : List Pos) : ℕ :=
  q.length + 2 * unvisCard w h vis

/-- Termination measure of the BFS loop. -/
def bfsMeasure (w h : ℕ) (q : List (Pos × List Move)) (vis : List Pos) : ℕ :=
  q.length + 2 * unvisCard w h vis

/-! # Helper lemmas -/

theorem clip_mem (x lo hi : ℚ) (h : lo ≤ hi) :
    lo ≤ clip x lo hi ∧ clip x lo hi ≤ hi :=
  ⟨le_min (le_trans (le_max_right x lo) (le_refl _)) h |>.trans_eq rfl,
    min_le_right _ _⟩

/-! # Claim C3 -/

/-- C3 (amended): only the v0.3 vacuum variant clamps its dynamic
thresholds before comparison — the panic threshold into [0.2, 0.95] and the
battery threshold into [5, 59] — for every LPI value and battery level.
The sweep and frontier variants compare unclamped formulas (see the
counterexample). -/
theorem C3_v03_thresholds_clamped (lpi battery : ℚ) :
    1/5 ≤ (dynamicThresholds lpi battery).1 ∧
    (dynamicThresholds lpi battery).1 ≤ 19/20 ∧
    5 ≤ (dynamicThresholds lpi battery).2 ∧
    (dynamicThresholds lpi battery).2 ≤ 59 := by
  have h1 := clip_mem (4/5 - lpi * (2/5) - (1/4) * (1 - battery / 60)) (1/5) (19/20)
    (by norm_num)
  have h2 := clip_mem (20 + lpi * 20) 5 59 (by norm_num)
  exact ⟨h1.1, h1.2, h2.1, h2.2⟩

/-- C3 counterexample: the sweep agent at alpha = 3 (a swept value) and
hunger 199 compares the unclamped threshold 737/400 = 1.8425 > 0.95 against
the risk, and the frontier agent at alpha = 4 (a swept value), lpi = 1 and
battery 1 compares -107/60 < 0.2; neither lies in the claimed [0.2, 0.95]
range. -/
theorem C3_unclamped_cex :
    sweepThreshold 3 199 = 737/400 ∧ ¬ sweepThreshold 3 199 ≤ 19/20 ∧
    frontierPanicTh 4 1 1 = -107/60 ∧ frontierPanicTh 4 1 1 < 1/5 := by
  norm_num [sweepThreshold, hungerRatio, frontierPanicTh, min_def]

/-! # Claim C5 -/

/-- C5 (amended): every risk score lies in [0, 1] (for the frontier
variant, given the nonnegativity of the SVD singular-value ratio `e`), the
snake risk is exactly 0 below 3 body points, the frontier risk is exactly 0
below 5 history points (not: whenever its 10-slot window is not yet full),
and the v0.3 vacuum risk is exactly 0 until its 10-slot window is full. -/
theorem C5_riskscore_range (body hist : List Pos) (e : ℚ) (w h : ℕ)
    (he : 0 ≤ e) :
    (0 ≤ analyze_risk body e w h ∧ analyze_risk body e w h ≤ 1) ∧
    (body.length < 3 → analyze_risk body e w h = 0) ∧
    (0 ≤ frontierRisk hist e ∧ frontierRisk hist e ≤ 1) ∧
    (hist.length < 5 → frontierRisk hist e = 0) ∧
    (hist.length < 10 → v03Panic hist e = 0) := by
  refine ⟨?_, ?_, ?_, ?_, ?_⟩
  · match body with
    | [] => simp [analyze_risk]
    | hd :: tl =>
      simp only [analyze_risk]
      split_ifs with hlen
      · norm_num
      · have hg := clip_mem (1 - e * 5) 0 1 (by norm_num)
        have ht := clip_mem
          (1 - (flood_fill_count hd (hd :: tl) w h : ℚ) / max 1 ((hd :: tl).length : ℚ))
          0 1 (by norm_num)
        constructor <;> nlinarith [hg.1, hg.2, ht.1, ht.2]
  · intro hlen
    match body, hlen with
    | [], _ => simp [analyze_risk]
    | hd :: tl, hlen =>
      simp only [analyze_risk]
      rw [if_pos hlen]
  · unfold frontierRisk
    split_ifs with hlen
    · norm_num
    · have h1 : 0 ≤ min (e * 5) 1 := le_min (by nlinarith) (by norm_num)
      have h2 : min (e * 5) 1 ≤ 1 := min_le_right _ _
      constructor <;> linarith
  · intro hlen; unfold frontierRisk; rw [if_pos hlen]
  · intro hlen; unfold v03Panic; rw [if_pos hlen]

/-- C5 counterexample: seven collinear history points (a straight-line
walk, whose centred point matrix has second singular value exactly 0, hence
entropy ratio 0) leave the 10-slot frontier window not yet full, yet
`StructGate.risk` of the frontier script returns 1, not 0. -/
theorem C5_notfull_cex :
    frontierRisk c5Hist 0 = 1 ∧ c5Hist.length = 7 ∧ c5Hist.length < 10 := by
  norm_num [frontierRisk, c5Hist, min_def]

/-- C5 witness: the theorem instantiated at the seven-point body, the empty
history and entropy 0. -/
theorem C5_riskscore_range_witness :
    (0 ≤ analyze_risk c5Hist 0 12 12 ∧ analyze_risk c5Hist 0 12 12 ≤ 1) ∧
    frontierRisk [] 0 = 0 ∧ v03Panic [] 0 = 0 := by
  have h := C5_riskscore_range c5Hist [] 0 12 12 (by norm_num)
  exact ⟨h.1, h.2.2.2.1 (by norm_num), h.2.2.2.2 (by norm_num)⟩

/-! # Claim C7 -/

/-- C7: for every hunger level whose hunger ratio is strictly positive, the
sweep-agent pricing `base + hunger_ratio * (gain * alpha)` is strictly
increasing in alpha. -/
theorem C7_alpha_monotone (hunger : ℕ) (a1 a2 : ℚ)
    (h0 : 0 < hungerRatio hunger) (h12 : a1 < a2) :
    sweepThreshold a1 hunger < sweepThreshold a2 hunger := by
  unfold sweepThreshold
  have hmul : hungerRatio hunger * ((1/2) * a1) < hungerRatio hunger * ((1/2) * a2) :=
    mul_lt_mul_of_pos_left (by linarith) h0
  linarith

/-- C7 witness: hunger 100 gives hunger ratio 1/2 > 0, and the threshold at
alpha = 1 is strictly below the threshold at alpha = 2. -/
theorem C7_alpha_monotone_witness :
    sweepThreshold 1 100 < sweepThreshold 2 100 :=
  C7_alpha_monotone 100 1 2 (by norm_num [hungerRatio, min_def]) (by norm_num)

/-! # Claim C10 -/

/-- C10: `bfs_path` with goal equal to start pops the start first, matches
the goal with the empty path and returns none (`path[0] if path else
None`), for every obstacle set and grid size — the same value it returns
when the goal is unreachable, as on the concrete blocked 3x3 grid. -/
theorem C10_start_eq_goal_none (start : Pos) (obs : List Pos) (w h : ℕ) :
    bfs_path start start obs w h = none ∧
    bfs_path (0, 0) (2, 2) [(1, 0), (0, 1), (1, 1)] 3 3 = none := by
  constructor
  · simp [bfs_path, bfs_full, bfsAux]
  · decide

/-! # Frontier state machine lemmas -/

theorem chooseStep_events_eq (alpha : ℚ) (k : ℕ) (s : FState) (i : FInput) :
    (chooseStep alpha k s i).panic_events =
      s.panic_events +
        (if s.mode ≠ FMode.PANIC ∧ (chooseStep alpha k s i).mode = FMode.PANIC
          then 1 else 0) := by
  unfold chooseStep
  by_cases hb : i.battery < frontierLowBatTh alpha (lpiUpdate s.H s.lpi i.r).2
  · simp [hb]
  · by_cases hr : frontierPanicTh alpha (lpiUpdate s.H s.lpi i.r).2 i.battery < i.r
    · by_cases hm : s.mode = FMode.PANIC
      · simp [hb, hr, hm]
      · simp [hb, hr, hm]
    · simp [hb, hr]

theorem chooseStep_events_mono (alpha : ℚ) (k : ℕ) (s : FState) (i : FInput) :
    s.panic_events ≤ (chooseStep alpha k s i).panic_events := by
  rw [chooseStep_events_eq]
  split_ifs <;> omega

theorem frontierRun_events_mono (alpha : ℚ) :
    ∀ (L : List FInput) (k : ℕ) (s : FState),
      s.panic_events ≤ (frontierRun alpha k s L).panic_events
  | [], _, _ => le_refl _
  | i :: rest, k, s =>
    le_trans (chooseStep_events_mono alpha k s i)
      (frontierRun_events_mono alpha rest (k + 1) (chooseStep alpha k s i))

theorem frontierRun_append (alpha : ℚ) :
    ∀ (L1 L2 : List FInput) (k : ℕ) (s : FState),
      frontierRun alpha k s (L1 ++ L2) =
        frontierRun alpha (k + L1.length) (frontierRun alpha k s L1) L2
  | [], L2, k, s => by simp [frontierRun]
  | i :: rest, L2, k, s => by
    have := frontierRun_append alpha rest L2 (k + 1) (chooseStep alpha k s i)
    simpa [frontierRun, Nat.add_assoc, Nat.add_comm 1 rest.length] using this

theorem frontierRun_events_count (alpha : ℚ) :
    ∀ (L : List FInput) (k : ℕ) (s : FState),
      (frontierRun alpha k s L).panic_events =
        s.panic_events + frontierEnters alpha k s L
  | [], _, _ => by simp [frontierRun, frontierEnters]
  | i :: rest, k, s => by
    have hrec := frontierRun_events_count alpha rest (k + 1) (chooseStep alpha k s i)
    have hstep := chooseStep_events_eq alpha k s i
    simp only [frontierRun, frontierEnters]
    rw [hrec, hstep]
    omega

/-! # Snake latch lemmas -/

theorem snakeStep_inPanic (k : ℕ) (s : SState) (r th : ℚ) :
    (snakeStep k s r th).inPanic = decide (th ≤ r) := by
  unfold snakeStep
  split_ifs with h1 h2 <;> simp [h1]

theorem snakeStep_history (k : ℕ) (s : SState) (r th : ℚ) :
    (snakeStep k s r th).history.length =
      s.history.length + (if th ≤ r ∧ s.inPanic = false then 1 else 0) := by
  unfold snakeStep
  split_ifs with h1 h2 <;> simp_all

theorem snakeRun_episode_count :
    ∀ (L : List (ℚ × ℚ)) (k : ℕ) (s : SState),
      (snakeRunPanic k s L).history.length =
        s.history.length + snakeEnters s.inPanic L
  | [], _, _ => by simp [snakeRunPanic, snakeEnters]
  | (r, th) :: rest, k, s => by
    have hrec := snakeRun_episode_count rest (k + 1) (snakeStep k s r th)
    simp only [snakeRunPanic, snakeEnters]
    rw [hrec, snakeStep_history, snakeStep_inPanic]
    split_ifs <;> omega

/-! # Vacuum v0.3 state machine lemmas -/

theorem actStep_events_eq (k : ℕ) (s : BState) (i : BInput) :
    (actStep k s i).panic_events = s.panic_events +
      (if s.mode = BMode.NORMAL ∧ (actStep k s i).mode = BMode.ESCAPE
        then 1 else 0) := by
  unfold actStep
  by_cases hb : i.battery <
      (dynamicThresholds (v03LpiUpdate s.H s.lpi i.r i.isSafe).2 i.battery).2
  · simp only [hb, if_true, if_pos]
    by_cases hrel : s.mode = BMode.ESCAPE ∧ s.escape_timer ≤ (0 : ℤ)
    · simp [hrel, hrel.1]
    · simp [hrel]
  · simp only [hb, if_false, if_neg, not_false_iff]
    by_cases ht : s.mode = BMode.NORMAL ∧
        (if 0 < s.cooldown then s.cooldown - 1 else s.cooldown) = 0 ∧
        (dynamicThresholds (v03LpiUpdate s.H s.lpi i.r i.isSafe).2 i.battery).1
          ≤ i.r
    · simp [ht, ht.1]
    · simp only [ht, if_false, if_neg, not_false_iff]
      by_cases hrel : s.mode = BMode.ESCAPE ∧ s.escape_timer ≤ (0 : ℤ)
      · simp [hrel, hrel.1]
      · cases hsm : s.mode <;> simp [hrel, hsm]

theorem actStep_events_mono (k : ℕ) (s : BState) (i : BInput) :
    s.panic_events ≤ (actStep k s i).panic_events := by
  rw [actStep_events_eq]
  split_ifs <;> omega

theorem v03Run_events_mono :
    ∀ (L : List BInput) (k : ℕ) (s : BState),
      s.panic_events ≤ (v03Run k s L).panic_events
  | [], _, _ => le_refl _
  | i :: rest, k, s =>
    le_trans (actStep_events_mono k s i)
      (v03Run_events_mono rest (k + 1) (actStep k s i))

theorem v03Run_append :
    ∀ (L1 L2 : List BInput) (k : ℕ) (s : BState),
      v03Run k s (L1 ++ L2) =
        v03Run (k + L1.length) (v03Run k s L1) L2
  | [], L2, k, s => by simp [v03Run]
  | i :: rest, L2, k, s => by
    have := v03Run_append rest L2 (k + 1) (actStep k s i)
    simpa [v03Run, Nat.add_assoc, Nat.add_comm 1 rest.length] using this

theorem v03Run_events_count :
    ∀ (L : List BInput) (k : ℕ) (s : BState),
      (v03Run k s L).panic_events = s.panic_events + v03Enters k s L
  | [], _, _ => by simp [v03Run, v03Enters]
  | i :: rest, k, s => by
    have hrec := v03Run_events_count rest (k + 1) (actStep k s i)
    have hstep := actStep_events_eq k s i
    simp only [v03Run, v03Enters]
    rw [hrec, hstep]
    omega

/-! # Claim C2 -/

/-- C2 (amended): the recorded episode count equals the number of
transitions into PANIC/ESCAPE from a non-PANIC mode, never the number of
steps spent in PANIC: for every run of the frontier agent the event counter
grows by exactly the number of steps entering PANIC from NORMAL or
SURVIVAL, for every run of the snake latch the history grows by exactly the
number of steps whose risk reaches the threshold while the latch is clear,
and for every run of the v0.3 vacuum agent (with its cooldown and escape
timer) the event counter grows by exactly the number of steps entering
ESCAPE from NORMAL. In the frontier variant the entering mode can also be
SURVIVAL, so its count can exceed the number of NORMAL-to-PANIC transitions
(see the counterexample); the snake and v0.3 variants enter from NORMAL
only. -/
theorem C2_episode_count (alpha : ℚ) (k k2 k3 : ℕ) (s : FState)
    (L : List FInput) (s2 : SState) (L2 : List (ℚ × ℚ)) (s3 : BState)
    (L3 : List BInput) :
    (frontierRun alpha k s L).panic_events =
      s.panic_events + frontierEnters alpha k s L ∧
    (snakeRunPanic k2 s2 L2).history.length =
      s2.history.length + snakeEnters s2.inPanic L2 ∧
    (v03Run k3 s3 L3).panic_events = s3.panic_events + v03Enters k3 s3 L3 :=
  ⟨frontierRun_events_count alpha L k s, snakeRun_episode_count L2 k2 s2,
    v03Run_events_count L3 k3 s3⟩

/-- C2 counterexample: a frontier run (alpha = 0) whose mode goes
NORMAL → SURVIVAL (battery 10 below the threshold 20) → PANIC (recharged
battery, risk 0.9 above the threshold 0.8) records one panic episode while
the number of NORMAL-to-PANIC transitions is zero: the episode is appended
on a SURVIVAL-to-PANIC edge. -/
theorem C2_survival_entry_cex :
    (frontierRun 0 0 fInit c2Inputs).panic_events = 1 ∧
    frontierNormalEnters 0 0 fInit c2Inputs = 0 := by
  constructor
  · norm_num [c2Inputs, frontierRun, chooseStep, lpiUpdate, frontierPanicTh,
      frontierLowBatTh, fInit]
    decide
  · norm_num [c2Inputs, frontierNormalEnters, frontierRun, chooseStep, lpiUpdate,
      frontierPanicTh, frontierLowBatTh, fInit]
    decide

/-! # Rescue-accounting lemmas -/

theorem chooseStep_noeval (alpha : ℚ) (k : ℕ) (s : FState) (i : FInput) (t0 : ℕ)
    (hl : s.last_panic_step = some t0)
    (he : (chooseStep alpha k s i).panic_events = s.panic_events)
    (hk : k ≠ t0 + 12) :
    (chooseStep alpha k s i).last_panic_step = some t0 ∧
    (chooseStep alpha k s i).panic_saved = s.panic_saved := by
  unfold chooseStep at he ⊢
  by_cases hb : i.battery < frontierLowBatTh alpha (lpiUpdate s.H s.lpi i.r).2
  · simp [hb, hl, hk]
  · by_cases hr : frontierPanicTh alpha (lpiUpdate s.H s.lpi i.r).2 i.battery < i.r
    · by_cases hm : s.mode = FMode.PANIC
      · simp [hb, hr, hm, hl, hk]
      · simp [hb, hr, hm] at he
    · simp [hb, hr, hl, hk]

theorem chooseStep_eval (alpha : ℚ) (k : ℕ) (s : FState) (i : FInput) (t0 : ℕ)
    (hl : s.last_panic_step = some t0)
    (he : (chooseStep alpha k s i).panic_events = s.panic_events)
    (hk : k = t0 + 12) (hd : i.isDone = false) :
    (chooseStep alpha k s i).panic_saved = s.panic_saved + 1 ∧
    (chooseStep alpha k s i).last_panic_step = none := by
  unfold chooseStep at he ⊢
  by_cases hb : i.battery < frontierLowBatTh alpha (lpiUpdate s.H s.lpi i.r).2
  · simp [hb, hl, hk, hd]
  · by_cases hr : frontierPanicTh alpha (lpiUpdate s.H s.lpi i.r).2 i.battery < i.r
    · by_cases hm : s.mode = FMode.PANIC
      · simp [hb, hr, hm, hl, hk, hd]
      · simp [hb, hr, hm] at he
    · simp [hb, hr, hl, hk, hd]

theorem frontierRun_noeval (alpha : ℚ) :
    ∀ (L : List FInput) (k0 : ℕ) (s : FState) (t0 : ℕ),
      s.last_panic_step = some t0 →
      (frontierRun alpha k0 s L).panic_events = s.panic_events →
      k0 + L.length ≤ t0 + 12 →
      (frontierRun alpha k0 s L).last_panic_step = some t0 ∧
      (frontierRun alpha k0 s L).panic_saved = s.panic_saved
  | [], k0, s, t0, hl, _, _ => ⟨hl, rfl⟩
  | i :: rest, k0, s, t0, hl, he, hb => by
    have hmono1 := chooseStep_events_mono alpha k0 s i
    have hmono2 :=
      frontierRun_events_mono alpha rest (k0 + 1) (chooseStep alpha k0 s i)
    have hrun : frontierRun alpha k0 s (i :: rest) =
        frontierRun alpha (k0 + 1) (chooseStep alpha k0 s i) rest := rfl
    rw [hrun] at he ⊢
    have he1 : (chooseStep alpha k0 s i).panic_events = s.panic_events := by omega
    have hk0 : k0 ≠ t0 + 12 := by
      have := List.length_cons i rest ▸ hb
      omega
    obtain ⟨hl1, hs1⟩ := chooseStep_noeval alpha k0 s i t0 hl he1 hk0
    have hrest := frontierRun_noeval alpha rest (k0 + 1) (chooseStep alpha k0 s i)
      t0 hl1 (by omega) (by simp only [List.length_cons] at hb; omega)
    exact ⟨hrest.1, hrest.2.trans hs1⟩

theorem actStep_noeval (k : ℕ) (s : BState) (i : BInput) (t0 : ℕ) (r0 : ℚ)
    (hl : s.pending_rescue = some (t0, r0))
    (he : (actStep k s i).panic_events = s.panic_events)
    (hk : k < t0 + 12) :
    (actStep k s i).pending_rescue = some (t0, r0) ∧
    (actStep k s i).panic_saved = s.panic_saved ∧
    (actStep k s i).risk_drop_events = s.risk_drop_events ∧
    (actStep k s i).risk_drop_success = s.risk_drop_success := by
  unfold actStep at he ⊢
  rw [hl] at he ⊢
  by_cases ht : (if i.battery <
        (dynamicThresholds (v03LpiUpdate s.H s.lpi i.r i.isSafe).2 i.battery).2
      then BMode.SURVIVAL else s.mode) = BMode.NORMAL ∧
      (if 0 < s.cooldown then s.cooldown - 1 else s.cooldown) = 0 ∧
      (dynamicThresholds (v03LpiUpdate s.H s.lpi i.r i.isSafe).2 i.battery).1
        ≤ i.r
  · simp only [ht, if_true, if_pos] at he
    simp at he
  · simp only [ht, if_false, if_neg, not_false_iff] at he ⊢
    have hguard : ¬ (t0, r0).1 + 12 ≤ k := by
      dsimp only
      omega
    simp [hguard]

theorem actStep_eval (k : ℕ) (s : BState) (i : BInput) (t0 : ℕ) (r0 : ℚ)
    (hl : s.pending_rescue = some (t0, r0))
    (he : (actStep k s i).panic_events = s.panic_events)
    (hk : t0 + 12 ≤ k) :
    (actStep k s i).panic_saved = s.panic_saved + 1 ∧
    (actStep k s i).risk_drop_events = s.risk_drop_events + 1 ∧
    (actStep k s i).risk_drop_success =
      s.risk_drop_success + (if i.r < r0 - 3/20 then 1 else 0) ∧
    (actStep k s i).pending_rescue = none := by
  unfold actStep at he ⊢
  rw [hl] at he ⊢
  by_cases ht : (if i.battery <
        (dynamicThresholds (v03LpiUpdate s.H s.lpi i.r i.isSafe).2 i.battery).2
      then BMode.SURVIVAL else s.mode) = BMode.NORMAL ∧
      (if 0 < s.cooldown then s.cooldown - 1 else s.cooldown) = 0 ∧
      (dynamicThresholds (v03LpiUpdate s.H s.lpi i.r i.isSafe).2 i.battery).1
        ≤ i.r
  · simp only [ht, if_true, if_pos] at he
    simp at he
  · simp only [ht, if_false, if_neg, not_false_iff] at he ⊢
    have hguard : (t0, r0).1 + 12 ≤ k := by
      dsimp only
      omega
    simp [hguard]

theorem v03Run_noeval :
    ∀ (L : List BInput) (k0 : ℕ) (s : BState) (t0 : ℕ) (r0 : ℚ),
      s.pending_rescue = some (t0, r0) →
      (v03Run k0 s L).panic_events = s.panic_events →
      k0 + L.length ≤ t0 + 12 →
      (v03Run k0 s L).pending_rescue = some (t0, r0) ∧
      (v03Run k0 s L).panic_saved = s.panic_saved ∧
      (v03Run k0 s L).risk_drop_events = s.risk_drop_events ∧
      (v03Run k0 s L).risk_drop_success = s.risk_drop_success
  | [], k0, s, t0, r0, hl, _, _ => ⟨hl, rfl, rfl, rfl⟩
  | i :: rest, k0, s, t0, r0, hl, he, hb => by
    have hmono1 := actStep_events_mono k0 s i
    have hmono2 := v03Run_events_mono rest (k0 + 1) (actStep k0 s i)
    have hrun : v03Run k0 s (i :: rest) =
        v03Run (k0 + 1) (actStep k0 s i) rest := rfl
    rw [hrun] at he ⊢
    have he1 : (actStep k0 s i).panic_events = s.panic_events := by omega
    have hk0 : k0 < t0 + 12 := by
      have := List.length_cons i rest ▸ hb
      omega
    obtain ⟨hl1, hs1, hr1, hd1⟩ := actStep_noeval k0 s i t0 r0 hl he1 hk0
    have hrest := v03Run_noeval rest (k0 + 1) (actStep k0 s i) t0 r0 hl1
      (by omega) (by simp only [List.length_cons] at hb; omega)
    exact ⟨hrest.1, hrest.2.1.trans hs1, hrest.2.2.1.trans hr1,
      hrest.2.2.2.trans hd1⟩

theorem rescue_count_append (his : List ℕ) (p finalSteps : ℕ) :
    rescue_count (his ++ [p]) finalSteps =
      rescue_count his finalSteps + (if p + 20 ≤ finalSteps then 1 else 0) := by
  unfold rescue_count
  rw [List.filter_append, List.length_append]
  congr 1
  simp only [List.filter_cons, List.filter_nil]
  split_ifs with h1 h2 h3 <;> simp_all

/-! # Claim C1 -/

/-- C1 (amended): both vacuum agents keep a single pending episode.
Provided no new panic transition occurs during the twelve steps following a
pending start step, the episode is evaluated exactly once, at exactly the
offset RESCUE_WINDOW = 12: the rescue counters and the pending slot are
untouched up to offset 11, and at offset 12 the episode is marked rescued
(in the frontier variant because the world is not done; in the v0.3
variant unconditionally on a live step, with the risk-drop counters
recording whether risk fell 0.15 below its episode-start value) and the
slot is cleared. When a new transition does occur inside the window (the
v0.3 cooldown of 6 steps permits one), the pending episode is overwritten
and never evaluated (see the counterexample). In the snake variant the
accounting instead happens once at the end of the run: each recorded
episode contributes exactly one unit to rescue_count, counted rescued
exactly when the run lasted at least RESCUE_WINDOW = 20 steps past its
start. -/
theorem C1_rescue_window (alpha : ℚ) (s : FState) (t0 : ℕ) (L : List FInput)
    (i12 : FInput) (sB : BState) (t3 : ℕ) (r0 : ℚ) (L3 : List BInput)
    (i3 : BInput) (his : List ℕ) (pstart finalSteps : ℕ)
    (hlast : s.last_panic_step = some t0) (hlen : L.length = 11)
    (hev : (frontierRun alpha (t0 + 1) s (L ++ [i12])).panic_events =
      s.panic_events)
    (hdone : i12.isDone = false)
    (hlast3 : sB.pending_rescue = some (t3, r0)) (hlen3 : L3.length = 11)
    (hev3 : (v03Run (t3 + 1) sB (L3 ++ [i3])).panic_events =
      sB.panic_events) :
    ((frontierRun alpha (t0 + 1) s L).panic_saved = s.panic_saved ∧
      (frontierRun alpha (t0 + 1) s L).last_panic_step = some t0 ∧
      (frontierRun alpha (t0 + 1) s (L ++ [i12])).panic_saved =
        s.panic_saved + 1 ∧
      (frontierRun alpha (t0 + 1) s (L ++ [i12])).last_panic_step = none) ∧
    ((v03Run (t3 + 1) sB L3).panic_saved = sB.panic_saved ∧
      (v03Run (t3 + 1) sB L3).pending_rescue = some (t3, r0) ∧
      (v03Run (t3 + 1) sB (L3 ++ [i3])).panic_saved = sB.panic_saved + 1 ∧
      (v03Run (t3 + 1) sB (L3 ++ [i3])).risk_drop_events =
        sB.risk_drop_events + 1 ∧
      (v03Run (t3 + 1) sB (L3 ++ [i3])).risk_drop_success =
        sB.risk_drop_success + (if i3.r < r0 - 3/20 then 1 else 0) ∧
      (v03Run (t3 + 1) sB (L3 ++ [i3])).pending_rescue = none) ∧
    rescue_count (his ++ [pstart]) finalSteps =
      rescue_count his finalSteps +
        (if pstart + 20 ≤ finalSteps then 1 else 0) := by
  refine ⟨?_, ?_, rescue_count_append his pstart finalSteps⟩
  · have happ := frontierRun_append alpha L [i12] (t0 + 1) s
    have hsingle : frontierRun alpha (t0 + 1 + L.length)
        (frontierRun alpha (t0 + 1) s L) [i12] =
        chooseStep alpha (t0 + 1 + L.length) (frontierRun alpha (t0 + 1) s L)
          i12 := rfl
    rw [hsingle, hlen] at happ
    have hk12 : t0 + 1 + 11 = t0 + 12 := by omega
    rw [hk12] at happ
    have hmono1 := frontierRun_events_mono alpha L (t0 + 1) s
    have hmono2 := chooseStep_events_mono alpha (t0 + 12)
      (frontierRun alpha (t0 + 1) s L) i12
    rw [happ] at hev
    have heL : (frontierRun alpha (t0 + 1) s L).panic_events =
        s.panic_events := by
      omega
    obtain ⟨hl1, hs1⟩ := frontierRun_noeval alpha L (t0 + 1) s t0 hlast heL
      (by omega)
    have heStep : (chooseStep alpha (t0 + 12) (frontierRun alpha (t0 + 1) s L)
        i12).panic_events = (frontierRun alpha (t0 + 1) s L).panic_events := by
      omega
    obtain ⟨hsv, hln⟩ := chooseStep_eval alpha (t0 + 12)
      (frontierRun alpha (t0 + 1) s L) i12 t0 hl1 heStep rfl hdone
    refine ⟨hs1, hl1, ?_, ?_⟩
    · rw [happ, hsv, hs1]
    · rw [happ, hln]
  · have happ := v03Run_append L3 [i3] (t3 + 1) sB
    have hsingle : v03Run (t3 + 1 + L3.length) (v03Run (t3 + 1) sB L3) [i3] =
        actStep (t3 + 1 + L3.length) (v03Run (t3 + 1) sB L3) i3 := rfl
    rw [hsingle, hlen3] at happ
    have hk12 : t3 + 1 + 11 = t3 + 12 := by omega
    rw [hk12] at happ
    have hmono1 := v03Run_events_mono L3 (t3 + 1) sB
    have hmono2 := actStep_events_mono (t3 + 12) (v03Run (t3 + 1) sB L3) i3
    rw [happ] at hev3
    have heL : (v03Run (t3 + 1) sB L3).panic_events = sB.panic_events := by
      omega
    obtain ⟨hl1, hs1, hr1, hd1⟩ := v03Run_noeval L3 (t3 + 1) sB t3 r0 hlast3
      heL (by omega)
    have heStep : (actStep (t3 + 12) (v03Run (t3 + 1) sB L3)
        i3).panic_events = (v03Run (t3 + 1) sB L3).panic_events := by
      omega
    obtain ⟨hsv, hrde, hrds, hpend⟩ := actStep_eval (t3 + 12)
      (v03Run (t3 + 1) sB L3) i3 t3 r0 hl1 heStep (le_refl _)
    refine ⟨hs1, hl1, ?_, ?_, ?_, ?_⟩
    · rw [happ, hsv, hs1]
    · rw [happ, hrde, hr1]
    · rw [happ, hrds, hd1]
    · rw [happ, hpend]

set_option maxRecDepth 8000 in
set_option maxHeartbeats 4000000 in
/-- C1 witness: a frontier state and a v0.3 state, each with a pending
episode started at step 0 and one event on record, run through eleven
quiet steps and the evaluation step; each episode is marked rescued
exactly at step 12 and its slot cleared. -/
theorem C1_rescue_window_witness :
    (frontierRun 0 1 c1State (c1Quiet ++ [c1Last])).panic_saved = 1 ∧
    (frontierRun 0 1 c1State (c1Quiet ++ [c1Last])).last_panic_step = none ∧
    (v03Run 1 c1BState (c1BQuiet ++ [c1BLast])).panic_saved = 1 ∧
    (v03Run 1 c1BState (c1BQuiet ++ [c1BLast])).pending_rescue = none := by
  have h := C1_rescue_window 0 c1State 0 c1Quiet c1Last c1BState 0 (9/10)
    c1BQuiet c1BLast [] 0 0 rfl (by decide)
    (by norm_num [c1Quiet, c1Last, c1State, frontierRun, chooseStep, lpiUpdate,
        frontierPanicTh, frontierLowBatTh]) rfl rfl (by decide)
    (by norm_num [c1BQuiet, c1BLast, c1BState, v03Run, actStep, v03LpiUpdate,
        dynamicThresholds, clip, min_def, max_def])
  exact ⟨h.1.2.2.1, h.1.2.2.2, h.2.1.2.2.1, h.2.1.2.2.2.2.2⟩

set_option maxRecDepth 8000 in
set_option maxHeartbeats 16000000 in
/-- C1 counterexample: in the 19-step frontier trace the agent panics at
steps 4 and 6; the step-6 transition overwrites the pending episode of
step 4, which is then never evaluated although the never-terminating run
lasts well past step 4 + 12: of 2 recorded episodes only 1 is ever marked
rescued, where the claim demands both. Likewise in the 28-step v0.3 trace
the agent panics at steps 9 and 15 (its 6-step cooldown having elapsed
inside the 12-step window): the step-15 trigger overwrites the pending
episode of step 9, and of 2 recorded episodes only 1 is ever evaluated
(one risk-drop evaluation in total) although the run lasts well past step
9 + 12. -/
theorem C1_overwrite_cex :
    (frontierRun 0 0 fInit c1CexInputs).panic_events = 2 ∧
    (frontierRun 0 0 fInit c1CexInputs).panic_saved = 1 ∧
    c1CexInputs.length = 19 ∧
    c1CexInputs.all (fun i => !i.isDone) = true ∧
    (v03Run 0 bInit c1V03CexInputs).panic_events = 2 ∧
    (v03Run 0 bInit c1V03CexInputs).panic_saved = 1 ∧
    (v03Run 0 bInit c1V03CexInputs).risk_drop_events = 1 ∧
    c1V03CexInputs.length = 28 := by
  refine ⟨?_, ?_, by decide, by decide, ?_, ?_, ?_, by decide⟩
  · norm_num [c1CexInputs, frontierRun, chooseStep, lpiUpdate, frontierPanicTh,
      frontierLowBatTh, fInit]
    decide
  · norm_num [c1CexInputs, frontierRun, chooseStep, lpiUpdate, frontierPanicTh,
      frontierLowBatTh, fInit]
    decide
  · norm_num [c1V03CexInputs, v03Run, actStep, v03LpiUpdate, dynamicThresholds,
      clip, min_def, max_def, bInit]
  · norm_num [c1V03CexInputs, v03Run, actStep, v03LpiUpdate, dynamicThresholds,
      clip, min_def, max_def, bInit]
  · norm_num [c1V03CexInputs, v03Run, actStep, v03LpiUpdate, dynamicThresholds,
      clip, min_def, max_def, bInit]

/-! # Motor-floor lemmas -/

theorem maxReachAux_isSome (head : Pos) (obs : List Pos) (w h : ℕ) :
    ∀ (ms : List Move) (best : Option Move) (bestArea : ℤ),
      best.isSome → (maxReachAux head obs w h ms best bestArea).isSome
  | [], _, _, hb => hb
  | m :: ms, best, bestArea, hb => by
    simp only [maxReachAux]
    split_ifs with h1 h2
    · exact maxReachAux_isSome head obs w h ms (some m) _ rfl
    · exact maxReachAux_isSome head obs w h ms best bestArea hb
    · exact maxReachAux_isSome head obs w h ms best bestArea hb

theorem maxReachAux_finds (head : Pos) (obs : List Pos) (w h : ℕ) :
    ∀ (ms : List Move) (best : Option Move) (bestArea : ℤ),
      (best = none → bestArea < 0) →
      (∃ m ∈ ms, inBounds (mv head m) w h ∧ mv head m ∉ obs) →
      (maxReachAux head obs w h ms best bestArea).isSome
  | [], _, _, _, hex => absurd hex (by simp)
  | m :: ms, best, bestArea, hinv, hex => by
    simp only [maxReachAux]
    split_ifs with h1 h2
    · exact maxReachAux_isSome head obs w h ms (some m) _ rfl
    · have hpos : (0 : ℤ) ≤ flood_fill_count (mv head m) obs w h := Int.ofNat_nonneg _
      have hbest : best.isSome := by
        cases hb : best with
        | none => exact absurd (hinv hb) (by omega)
        | some b => rfl
      exact maxReachAux_isSome head obs w h ms best bestArea hbest
    · obtain ⟨m0, hm0, hfree⟩ := hex
      rcases List.mem_cons.mp hm0 with hEq | hmem
      · exact absurd (hEq ▸ hfree) h1
      · exact maxReachAux_finds head obs w h ms best bestArea hinv ⟨m0, hmem, hfree⟩

theorem get_max_reach_move_isSome (head : Pos) (obs : List Pos) (w h : ℕ)
    (hex : ∃ m ∈ MOVES, inBounds (mv head m) w h ∧ mv head m ∉ obs) :
    (get_max_reach_move head obs w h).isSome :=
  maxReachAux_finds head obs w h MOVES none (-1) (fun _ => by norm_num) hex

theorem option_floor_isSome (a g : Option Move) (hg : g.isSome) :
    (match a with
      | some m => some m
      | none => g).isSome := by
  cases a with
  | none => exact hg
  | some m => rfl

theorem get_action_pure_isSome (isCoase : Bool) (e : ℚ) (hd : Pos)
    (tl : List Pos) (food : Pos) (w h : ℕ) (hunger : ℕ)
    (hex : ∃ m ∈ MOVES, inBounds (mv hd m) w h ∧ mv hd m ∉ (hd :: tl).dropLast) :
    (get_action_pure isCoase e (hd :: tl) food w h hunger).isSome := by
  have hg := get_max_reach_move_isSome hd ((hd :: tl).dropLast) w h hex
  simp only [get_action_pure]
  exact option_floor_isSome _ _ hg

theorem escAux_boxed (world : VWorld) :
    ∀ (ms : List Move) (best : Option Move) (sc : ℤ),
      (∀ m ∈ ms, ¬ vIsFree world (mv world.pos m)) →
      escAux world ms best sc = best
  | [], _, _, _ => rfl
  | m :: ms, best, sc, hall => by
    simp only [escAux]
    rw [if_neg (hall m (List.mem_cons_self m ms))]
    exact escAux_boxed world ms best sc fun x hx => hall x (List.mem_cons_of_mem m hx)

theorem choose_escape_boxed (world : VWorld)
    (hboxed : ∀ m ∈ MOVES, ¬ vIsFree world (mv world.pos m)) :
    choose_escape_action world = VAct.STAY := by
  unfold choose_escape_action
  rw [escAux_boxed world MOVES none (-1) hboxed]

/-! # Claim C4 -/

/-- C4 (amended): both engines share the max-reach motor floor, and the
snake decision returns an action whenever some neighbour of the head is in
bounds and off the body-minus-tail obstacle set; the v0.3 vacuum escape
returns the explicit no-op STAY when all four neighbours are blocked. In
the snake variant, however, a fully boxed head makes `get_action` return
null rather than a legal no-op (see the counterexample); the environment
then treats the null action as zero movement. -/
theorem C4_motor_floor (isCoase : Bool) (e : ℚ) (hd : Pos) (tl : List Pos)
    (food : Pos) (w h : ℕ) (hunger : ℕ) (world : VWorld)
    (hnb : ∃ m ∈ MOVES, inBounds (mv hd m) w h ∧ mv hd m ∉ (hd :: tl).dropLast)
    (hboxed : ∀ m ∈ MOVES, ¬ vIsFree world (mv world.pos m)) :
    (get_action_pure isCoase e (hd :: tl) food w h hunger).isSome ∧
    choose_escape_action world = VAct.STAY :=
  ⟨get_action_pure_isSome isCoase e hd tl food w h hunger hnb,
    choose_escape_boxed world hboxed⟩

/-- C4 witness: a free single-cell agent at (10, 10) on the 20x20 grid gets
an action, and the boxed 3x3 vacuum world yields STAY. -/
theorem C4_motor_floor_witness :
    (get_action_pure false 0 [(10, 10)] (0, 0) 20 20 0).isSome ∧
    choose_escape_action c4World = VAct.STAY :=
  C4_motor_floor false 0 (10, 10) [] (0, 0) 20 20 0 c4World (by decide) (by decide)

/-- C4 counterexample: the five-cell snake whose head (0, 0) has both
in-bounds neighbours on the body-minus-tail: the goal path, the escape path
and the max-reach fallback are all unavailable, and `get_action` returns
null — not a legal no-op action. -/
theorem C4_boxed_none_cex :
    get_action_pure false 0 c4Snake (5, 5) 20 20 0 = none := by decide

/-! # Grid and reachability lemmas -/

theorem mem_MOVES (m : Move) : m ∈ MOVES := by
  cases m <;> simp [MOVES]

theorem mem_gridCells (p : Pos) (w h : ℕ) :
    p ∈ gridCells w h ↔ inBounds p w h := by
  unfold gridCells
  rw [Finset.mem_product, Finset.mem_Icc, Finset.mem_Icc]
  unfold inBounds
  omega

theorem card_gridCells (w h : ℕ) : (gridCells w h).card = w * h := by
  unfold gridCells
  rw [Finset.card_product, Int.card_Icc, Int.card_Icc]
  have h1 : ((w : ℤ) - 1 + 1 - 0).toNat = w := by omega
  have h2 : ((h : ℤ) - 1 + 1 - 0).toNat = h := by omega
  rw [h1, h2]

theorem mv_invMove (p : Pos) (m : Move) : mv (mv p m) (invMove m) = p := by
  cases m <;> simp [mv, invMove, delta, Prod.ext_iff]

theorem reach_subset_closed (obs : List Pos) (w h : ℕ) (s : Pos) (S : Set Pos)
    (hs : s ∈ S)
    (hclosed : ∀ p ∈ S, ∀ m : Move, inBounds (mv p m) w h → mv p m ∉ obs →
      mv p m ∈ S) :
    ∀ x, Relation.ReflTransGen (adjFree obs w h) s x → x ∈ S := by
  intro x hx
  induction hx with
  | refl => exact hs
  | tail _ hstep ih =>
    obtain ⟨⟨m, rfl⟩, hib, hobs⟩ := hstep
    exact hclosed _ ih m hib hobs

theorem rtg_endpoint_free (obs : List Pos) (w h : ℕ) (c : Pos)
    (hc : inBounds c w h ∧ c ∉ obs) :
    ∀ x, Relation.ReflTransGen (adjFree obs w h) c x → inBounds x w h ∧ x ∉ obs := by
  intro x hx
  induction hx with
  | refl => exact hc
  | tail _ hstep _ => exact ⟨hstep.2.1, hstep.2.2⟩

theorem rtg_symm_free (obs : List Pos) (w h : ℕ) (c : Pos)
    (hc : inBounds c w h ∧ c ∉ obs) :
    ∀ d, Relation.ReflTransGen (adjFree obs w h) c d →
      Relation.ReflTransGen (adjFree obs w h) d c := by
  intro d hd
  induction hd with
  | refl => exact Relation.ReflTransGen.refl
  | tail hcb hstep ih =>
    obtain ⟨⟨m, hmv⟩, hib, hobs⟩ := hstep
    have hbfree := rtg_endpoint_free obs w h c hc _ hcb
    exact Relation.ReflTransGen.head
      ⟨⟨invMove m, by rw [hmv, mv_invMove]⟩, hbfree.1, hbfree.2⟩ ih

/-! # Flood-fill correctness -/

theorem expandFF_spec (c : Pos) (obs : List Pos) (w h : ℕ) :
    ∀ (ms : List Move) (q vis : List Pos),
      ∃ adds : List Pos,
        (expandFF c obs w h ms q vis).1 = q ++ adds ∧
        (expandFF c obs w h ms q vis).2 = adds.reverse ++ vis ∧
        adds.Nodup ∧
        (∀ p ∈ adds, p ∉ vis) ∧
        (∀ p ∈ adds, (∃ m ∈ ms, p = mv c m) ∧ inBounds p w h ∧ p ∉ obs) ∧
        (∀ m ∈ ms, inBounds (mv c m) w h → mv c m ∉ obs →
          mv c m ∈ (expandFF c obs w h ms q vis).2)
  | [], q, vis => ⟨[], by simp [expandFF]⟩
  | m :: ms, q, vis => by
    simp only [expandFF]
    by_cases hc : inBounds (mv c m) w h ∧ mv c m ∉ obs ∧ mv c m ∉ vis
    · rw [if_pos hc]
      obtain ⟨adds, h1, h2, h3, h4, h5, h6⟩ :=
        expandFF_spec c obs w h ms (q ++ [mv c m]) (mv c m :: vis)
      refine ⟨mv c m :: adds, ?_, ?_, ?_, ?_, ?_, ?_⟩
      · rw [h1, List.append_assoc]; rfl
      · rw [h2, List.reverse_cons, List.append_assoc]; rfl
      · exact List.nodup_cons.mpr
          ⟨fun hmem => (h4 _ hmem) (List.mem_cons_self _ _), h3⟩
      · intro p hp
        rcases List.mem_cons.mp hp with rfl | hp2
        · exact hc.2.2
        · exact fun hv => (h4 p hp2) (List.mem_cons_of_mem _ hv)
      · intro p hp
        rcases List.mem_cons.mp hp with rfl | hp2
        · exact ⟨⟨m, List.mem_cons_self _ _, rfl⟩, hc.1, hc.2.1⟩
        · obtain ⟨⟨m2, hm2, hpm2⟩, hib, hobs⟩ := h5 p hp2
          exact ⟨⟨m2, List.mem_cons_of_mem _ hm2, hpm2⟩, hib, hobs⟩
      · intro m2 hm2 hib hobs
        rcases List.mem_cons.mp hm2 with rfl | hmem
        · rw [h2]
          exact List.mem_append_right _ (List.mem_cons_self _ _)
        · exact h6 m2 hmem hib hobs
    · rw [if_neg hc]
      obtain ⟨adds, h1, h2, h3, h4, h5, h6⟩ := expandFF_spec c obs w h ms q vis
      refine ⟨adds, h1, h2, h3, h4, ?_, ?_⟩
      · intro p hp
        obtain ⟨⟨m2, hm2, hpm2⟩, hib, hobs⟩ := h5 p hp
        exact ⟨⟨m2, List.mem_cons_of_mem _ hm2, hpm2⟩, hib, hobs⟩
      · intro m2 hm2 hib hobs
        rcases List.mem_cons.mp hm2 with rfl | hmem
        · have hv : mv c m2 ∈ vis := by
            by_contra hnv
            exact hc ⟨hib, hobs, hnv⟩
          rw [h2]
          exact List.mem_append_right _ hv
        · exact h6 m2 hmem hib hobs

theorem ffAux_correct (obs : List Pos) (w h : ℕ) (s : Pos) :
    ∀ (fuel : ℕ) (q vis : List Pos) (count : ℕ),
      vis.Nodup →
      (∀ p ∈ q, p ∈ vis) →
      count + q.length = vis.length →
      s ∈ vis →
      (∀ p ∈ vis, Relation.ReflTransGen (adjFree obs w h) s p) →
      (∀ p ∈ vis, p ∈ q ∨ ∀ m : Move, inBounds (mv p m) w h → mv p m ∉ obs →
        mv p m ∈ vis) →
      ffMeasure w h q vis ≤ fuel →
      ∃ visF : List Pos,
        ffAux obs w h fuel q vis count = visF.length ∧ visF.Nodup ∧
        ∀ p, p ∈ visF ↔ Relation.ReflTransGen (adjFree obs w h) s p
  | fuel, [], vis, count => by
    intro hnd _ hcount hs hreach hcl _
    refine ⟨vis, ?_, hnd, ?_⟩
    · simp only [List.length_nil] at hcount
      cases fuel <;> simp [ffAux] <;> omega
    · intro p
      refine ⟨hreach p, ?_⟩
      refine reach_subset_closed obs w h s (fun x => x ∈ vis) hs ?_ p
      intro x hx m hib hobs
      rcases hcl x hx with hq | hexp
      · exact absurd hq (List.not_mem_nil x)
      · exact hexp m hib hobs
  | 0, c :: rest, vis, count => by
    intro _ _ _ _ _ _ hm
    exfalso
    unfold ffMeasure at hm
    simp at hm
  | fuel + 1, c :: rest, vis, count => by
    intro hnd hq hcount hs hreach hcl hm
    obtain ⟨adds, h1, h2, h3, h4, h5, h6⟩ := expandFF_spec c obs w h MOVES rest vis
    have hc_vis : c ∈ vis := hq c (List.mem_cons_self _ _)
    have hstep : ffAux obs w h (fuel + 1) (c :: rest) vis count =
        ffAux obs w h fuel (rest ++ adds) (adds.reverse ++ vis) (count + 1) := by
      simp only [ffAux]
      rw [h1, h2]
    rw [hstep]
    have hsub : adds.toFinset ⊆ (gridCells w h).filter (fun p => p ∉ vis) := by
      intro p hp
      rw [List.mem_toFinset] at hp
      rw [Finset.mem_filter, mem_gridCells]
      exact ⟨(h5 p hp).2.1, h4 p hp⟩
    have hcard : unvisCard w h (adds.reverse ++ vis) =
        unvisCard w h vis - adds.length := by
      unfold unvisCard
      have hset : (gridCells w h).filter (fun p => p ∉ adds.reverse ++ vis) =
          ((gridCells w h).filter (fun p => p ∉ vis)) \ adds.toFinset := by
        ext p
        simp only [Finset.mem_filter, Finset.mem_sdiff, List.mem_append,
          List.mem_reverse, List.mem_toFinset]
        tauto
      rw [hset, Finset.card_sdiff hsub, List.toFinset_card_of_nodup h3]
    have hle : adds.length ≤ unvisCard w h vis := by
      have := Finset.card_le_card hsub
      rwa [List.toFinset_card_of_nodup h3] at this
    apply ffAux_correct obs w h s fuel (rest ++ adds) (adds.reverse ++ vis)
      (count + 1)
    · exact List.Nodup.append (List.nodup_reverse.mpr h3) hnd
        (fun p hp => h4 p (List.mem_reverse.mp hp))
    · intro p hp
      rcases List.mem_append.mp hp with hp1 | hp2
      · exact List.mem_append_right _ (hq p (List.mem_cons_of_mem _ hp1))
      · exact List.mem_append_left _ (List.mem_reverse.mpr hp2)
    · simp only [List.length_append, List.length_reverse]
      simp only [List.length_cons] at hcount
      omega
    · exact List.mem_append_right _ hs
    · intro p hp
      rcases List.mem_append.mp hp with hp1 | hp2
      · obtain ⟨⟨m, _, rfl⟩, hib, hobs⟩ := h5 p (List.mem_reverse.mp hp1)
        exact (hreach c hc_vis).tail ⟨⟨m, rfl⟩, hib, hobs⟩
      · exact hreach p hp2
    · intro p hp
      rcases List.mem_append.mp hp with hp1 | hp2
      · exact Or.inl (List.mem_append_right _ (List.mem_reverse.mp hp1))
      · rcases hcl p hp2 with hpq | hexp
        · rcases List.mem_cons.mp hpq with rfl | hprest
          · refine Or.inr ?_
            intro m hib hobs
            rw [← h2]
            exact h6 m (mem_MOVES m) hib hobs
          · exact Or.inl (List.mem_append_left _ hprest)
        · exact Or.inr fun m hib hobs =>
            List.mem_append_right _ (hexp m hib hobs)
    · unfold ffMeasure at hm ⊢
      rw [hcard]
      simp only [List.length_append, List.length_cons] at hm ⊢
      omega

theorem flood_fill_count_correct (s : Pos) (obs : List Pos) (w h : ℕ) :
    ∃ visF : List Pos,
      flood_fill_count s obs w h = visF.length ∧ visF.Nodup ∧
      ∀ p, p ∈ visF ↔ Relation.ReflTransGen (adjFree obs w h) s p := by
  unfold flood_fill_count
  apply ffAux_correct obs w h s (2 * w * h + 1) [s] [s] 0
  · exact List.nodup_singleton s
  · intro p hp; exact hp
  · simp
  · exact List.mem_singleton_self s
  · intro p hp
    rw [List.mem_singleton] at hp
    exact hp ▸ Relation.ReflTransGen.refl
  · intro p hp
    exact Or.inl hp
  · unfold ffMeasure
    have hle : unvisCard w h [s] ≤ w * h := by
      have := Finset.card_filter_le (gridCells w h) (fun p => p ∉ [s])
      rw [card_gridCells] at this
      exact this
    simp only [List.length_singleton]
    have h2 : 2 * w * h = 2 * (w * h) := by ring
    omega

theorem list_length_eq_of_mem_iff {v1 v2 : List Pos} (h1 : v1.Nodup)
    (h2 : v2.Nodup) (hiff : ∀ p, p ∈ v1 ↔ p ∈ v2) : v1.length = v2.length := by
  rw [← List.toFinset_card_of_nodup h1, ← List.toFinset_card_of_nodup h2]
  congr 1
  ext p
  simp only [List.mem_toFinset]
  exact hiff p

/-! # Claim C8 -/

/-- C8: flood fill started at either of two free cells of the same
4-connected component of the free region returns the same count, for every
obstacle set and grid size. -/
theorem C8_component_count (obs : List Pos) (w h : ℕ) (c1 c2 : Pos)
    (hib : inBounds c1 w h) (hfree : c1 ∉ obs)
    (hconn : Relation.ReflTransGen (adjFree obs w h) c1 c2) :
    flood_fill_count c1 obs w h = flood_fill_count c2 obs w h := by
  obtain ⟨v1, e1, n1, m1⟩ := flood_fill_count_correct c1 obs w h
  obtain ⟨v2, e2, n2, m2⟩ := flood_fill_count_correct c2 obs w h
  have hrev := rtg_symm_free obs w h c1 ⟨hib, hfree⟩ c2 hconn
  rw [e1, e2]
  apply list_length_eq_of_mem_iff n1 n2
  intro p
  rw [m1, m2]
  exact ⟨fun hp => hrev.trans hp, fun hp => hconn.trans hp⟩

/-- C8 witness: on an empty 2x2 grid the two adjacent free cells (0, 0) and
(1, 0) give the same flood-fill count. -/
theorem C8_component_count_witness :
    flood_fill_count (0, 0) [] 2 2 = flood_fill_count (1, 0) [] 2 2 :=
  C8_component_count [] 2 2 (0, 0) (1, 0) (by decide) (by decide)
    (Relation.ReflTransGen.single ⟨⟨Move.RIGHT, by decide⟩, by decide, by decide⟩)

/-! # Claim C9 -/

theorem rtg_start_obstacle (rest : List Pos) (w h : ℕ) (hd : Pos) :
    ∀ p, Relation.ReflTransGen (adjFree rest w h) hd p →
      Relation.ReflTransGen (adjFree (hd :: rest) w h) hd p := by
  intro p hp
  induction hp with
  | refl => exact Relation.ReflTransGen.refl
  | @tail b d hb hstep ih =>
    obtain ⟨⟨m, hmv⟩, hib, hobs⟩ := hstep
    by_cases heq : d = hd
    · exact heq ▸ Relation.ReflTransGen.refl
    · refine ih.tail ⟨⟨m, hmv⟩, hib, ?_⟩
      intro hmem
      rcases List.mem_cons.mp hmem with hh | hh
      · exact heq hh
      · exact hobs hh

/-- C9: the flood fill counts its start cell even when the start belongs to
the obstacle set (it is seeded into queue and visited unconditionally, so
the count is at least 1), and running it from the snake head with the full
body as obstacles returns exactly the count obtained with the body minus
the head — the topological risk over the full body equals its
rest-of-the-body reading. -/
theorem C9_head_in_obstacles (hd : Pos) (rest : List Pos) (w h : ℕ) :
    flood_fill_count hd (hd :: rest) w h = flood_fill_count hd rest w h ∧
    1 ≤ flood_fill_count hd (hd :: rest) w h := by
  obtain ⟨v1, e1, n1, m1⟩ := flood_fill_count_correct hd (hd :: rest) w h
  obtain ⟨v2, e2, n2, m2⟩ := flood_fill_count_correct hd rest w h
  constructor
  · rw [e1, e2]
    apply list_length_eq_of_mem_iff n1 n2
    intro p
    rw [m1, m2]
    constructor
    · intro hp
      refine Relation.ReflTransGen.mono ?_ hp
      intro a b hab
      exact ⟨hab.1, hab.2.1, fun hmem => hab.2.2 (List.mem_cons_of_mem _ hmem)⟩
    · exact rtg_start_obstacle rest w h hd p
  · rw [e1]
    have : hd ∈ v1 := (m1 hd).mpr Relation.ReflTransGen.refl
    have hne : v1 ≠ [] := List.ne_nil_of_mem this
    have := List.length_pos.mpr hne
    omega

/-! # Manhattan-distance lemmas -/

theorem manh_eq_zero (a b : Pos) : manh a b = 0 ↔ a = b := by
  unfold manh
  rw [Prod.ext_iff]
  omega

theorem manh_mv (a b : Pos) (m : Move) :
    manh (mv a m) b = manh a b + 1 ∨ manh (mv a m) b + 1 = manh a b := by
  cases m <;> (unfold manh mv delta; simp; omega)

theorem follows_append (a : Pos) :
    ∀ (l1 l2 : List Move), follows a (l1 ++ l2) = follows (follows a l1) l2
  | [], _ => rfl
  | m :: ms, l2 => follows_append (mv a m) ms l2

theorem manh_le_of_follows :
    ∀ (l : List Move) (a b : Pos), follows a l = b → manh a b ≤ l.length
  | [], a, b, hf => by
    unfold follows at hf
    simp [hf, manh]
  | m :: ms, a, b, hf => by
    have hrec := manh_le_of_follows ms (mv a m) b hf
    rcases manh_mv a b m with hc | hc <;> simp [List.length_cons] <;> omega

theorem first_move_decreasing (s g : Pos) (m : Move) (rest : List Move)
    (hf : follows s (m :: rest) = g)
    (hlen : (m :: rest).length = manh s g) :
    manh (mv s m) g + 1 = manh s g := by
  have h1 : manh (mv s m) g ≤ rest.length := manh_le_of_follows rest (mv s m) g hf
  simp only [List.length_cons] at hlen
  rcases manh_mv s g m with hc | hc <;> omega

theorem toward_move (s p : Pos) (w h : ℕ) (hp : inBounds p w h)
    (hs : inBounds s w h) (hne : p ≠ s) :
    ∃ m, inBounds (mv p m) w h ∧ manh s (mv p m) + 1 = manh s p := by
  obtain ⟨hp1, hp2, hp3, hp4⟩ := hp
  obtain ⟨hs1, hs2, hs3, hs4⟩ := hs
  by_cases hx : p.1 = s.1
  · have hy : p.2 ≠ s.2 := fun hy => hne (Prod.ext hx hy)
    by_cases hlt : p.2 < s.2
    · refine ⟨DOWN, ?_, ?_⟩ <;> (dsimp only [inBounds, mv, delta, manh]; omega)
    · refine ⟨UP, ?_, ?_⟩ <;> (dsimp only [inBounds, mv, delta, manh]; omega)
  · by_cases hlt : p.1 < s.1
    · refine ⟨RIGHT, ?_, ?_⟩ <;> (dsimp only [inBounds, mv, delta, manh]; omega)
    · refine ⟨LEFT, ?_, ?_⟩ <;> (dsimp only [inBounds, mv, delta, manh]; omega)

theorem grid_closed_all (w h : ℕ) (start : Pos) (S : Set Pos)
    (hsib : inBounds start w h) (hstart : start ∈ S)
    (hclosed : ∀ p ∈ S, ∀ m : Move, inBounds (mv p m) w h → mv p m ∈ S) :
    ∀ (n : ℕ) (p : Pos), manh start p ≤ n → inBounds p w h → p ∈ S
  | 0, p, hn, _ => by
    have : p = start := by
      have h0 : manh start p = 0 := by omega
      exact ((manh_eq_zero start p).mp h0).symm
    exact this ▸ hstart
  | n + 1, p, hn, hpib => by
    by_cases hne : p = start
    · exact hne ▸ hstart
    · obtain ⟨m, hmib, hmd⟩ := toward_move start p w h hpib hsib hne
      have hq : mv p m ∈ S := grid_closed_all w h start S hsib hstart hclosed n
        (mv p m) (by omega) hmib
      have := hclosed (mv p m) hq (invMove m)
        (by rw [mv_invMove]; exact hpib)
      rwa [mv_invMove] at this

theorem pairwise_of_mem {α : Type} (R : α → α → Prop) :
    ∀ l : List α, (∀ a ∈ l, ∀ b ∈ l, R a b) → l.Pairwise R
  | [], _ => List.Pairwise.nil
  | a :: l, hall => by
    refine List.Pairwise.cons ?_ (pairwise_of_mem R l ?_)
    · intro b hb
      exact hall a (List.mem_cons_self _ _) b (List.mem_cons_of_mem _ hb)
    · intro x hx y hy
      exact hall x (List.mem_cons_of_mem _ hx) y (List.mem_cons_of_mem _ hy)

/-! # BFS correctness -/

theorem expand_spec (c : Pos) (path : List Move) (obs : List Pos) (w h : ℕ) :
    ∀ (ms : List Move) (q : List (Pos × List Move)) (vis : List Pos),
      ∃ adds : List (Pos × List Move),
        (expand c path obs w h ms q vis).1 = q ++ adds ∧
        (expand c path obs w h ms q vis).2 =
          (adds.map Prod.fst).reverse ++ vis ∧
        (adds.map Prod.fst).Nodup ∧
        (∀ e ∈ adds, e.1 ∉ vis) ∧
        (∀ e ∈ adds, (∃ m ∈ ms, e.1 = mv c m ∧ e.2 = path ++ [m]) ∧
          inBounds e.1 w h ∧ e.1 ∉ obs) ∧
        (∀ m ∈ ms, inBounds (mv c m) w h → mv c m ∉ obs →
          mv c m ∈ (expand c path obs w h ms q vis).2)
  | [], q, vis => ⟨[], by simp [expand]⟩
  | m :: ms, q, vis => by
    simp only [expand]
    by_cases hc : inBounds (mv c m) w h ∧ mv c m ∉ obs ∧ mv c m ∉ vis
    · rw [if_pos hc]
      obtain ⟨adds, h1, h2, h3, h4, h5, h6⟩ :=
        expand_spec c path obs w h ms (q ++ [(mv c m, path ++ [m])]) (mv c m :: vis)
      refine ⟨(mv c m, path ++ [m]) :: adds, ?_, ?_, ?_, ?_, ?_, ?_⟩
      · rw [h1, List.append_assoc]; rfl
      · rw [h2, List.map_cons, List.reverse_cons, List.append_assoc]; rfl
      · rw [List.map_cons]
        refine List.nodup_cons.mpr ⟨?_, h3⟩
        intro hmem
        obtain ⟨e, he, heq⟩ := List.mem_map.mp hmem
        exact (h4 e he) (heq ▸ List.mem_cons_self _ _)
      · intro e he
        rcases List.mem_cons.mp he with rfl | he2
        · exact hc.2.2
        · exact fun hv => (h4 e he2) (List.mem_cons_of_mem _ hv)
      · intro e he
        rcases List.mem_cons.mp he with rfl | he2
        · exact ⟨⟨m, List.mem_cons_self _ _, rfl, rfl⟩, hc.1, hc.2.1⟩
        · obtain ⟨⟨m2, hm2, he1, he2eq⟩, hib, hobs⟩ := h5 e he2
          exact ⟨⟨m2, List.mem_cons_of_mem _ hm2, he1, he2eq⟩, hib, hobs⟩
      · intro m2 hm2 hib hobs
        rcases List.mem_cons.mp hm2 with rfl | hmem
        · rw [h2]
          exact List.mem_append_right _ (List.mem_cons_self _ _)
        · exact h6 m2 hmem hib hobs
    · rw [if_neg hc]
      obtain ⟨adds, h1, h2, h3, h4, h5, h6⟩ := expand_spec c path obs w h ms q vis
      refine ⟨adds, h1, h2, h3, h4, ?_, ?_⟩
      · intro e he
        obtain ⟨⟨m2, hm2, he1, he2eq⟩, hib, hobs⟩ := h5 e he
        exact ⟨⟨m2, List.mem_cons_of_mem _ hm2, he1, he2eq⟩, hib, hobs⟩
      · intro m2 hm2 hib hobs
        rcases List.mem_cons.mp hm2 with rfl | hmem
        · have hv : mv c m2 ∈ vis := by
            by_contra hnv
            exact hc ⟨hib, hobs, hnv⟩
          rw [h2]
          exact List.mem_append_right _ hv
        · exact h6 m2 hmem hib hobs

theorem manh_mv_left (s a : Pos) (m : Move) :
    manh s (mv a m) = manh s a + 1 ∨ manh s (mv a m) + 1 = manh s a := by
  cases m <;> (dsimp only [manh, mv, delta]; omega)

theorem level_fill (w h : ℕ) (start : Pos) (hsib : inBounds start w h)
    (c : Pos) (path : List Move) (rest : List (Pos × List Move)) (vis : List Pos)
    (hq1 : ∀ e ∈ (c, path) :: rest,
      follows start e.2 = e.1 ∧ e.2.length = manh start e.1 ∧ e.1 ∈ vis)
    (hpw : ((c, path) :: rest).Pairwise (fun a b =>
      manh start a.1 ≤ manh start b.1 ∧ manh start b.1 ≤ manh start a.1 + 1))
    (hfr : ∀ p, inBounds p w h → manh start p < manh start c → p ∈ vis)
    (hcl : ∀ p ∈ vis, p ∈ ((c, path) :: rest).map Prod.fst ∨
      ∀ m : Move, inBounds (mv p m) w h → mv p m ∈ vis) :
    ∀ p, inBounds p w h → manh start p ≤ manh start c → p ∈ vis := by
  intro p hpib hple
  by_cases hlt : manh start p < manh start c
  · exact hfr p hpib hlt
  · have heq : manh start p = manh start c := by omega
    by_cases hp0 : manh start p = 0
    · have hps : p = start := ((manh_eq_zero start p).mp (by omega)).symm
      have hcs : c = start := ((manh_eq_zero start c).mp (by omega)).symm
      have := (hq1 (c, path) (List.mem_cons_self _ _)).2.2
      rwa [hcs, ← hps] at this
    · have hpstart : p ≠ start := by
        intro hcon
        rw [hcon] at hp0
        exact hp0 (by dsimp only [manh]; omega)
      obtain ⟨m, hmib, hmd⟩ := toward_move start p w h hpib hsib hpstart
      have hq0vis : mv p m ∈ vis := hfr (mv p m) hmib (by omega)
      rcases hcl (mv p m) hq0vis with hinq | hexp
      · exfalso
        rw [List.map_cons] at hinq
        rcases List.mem_cons.mp hinq with hqc | hqrest
        · dsimp only at hqc
          rw [hqc] at hmd
          omega
        · obtain ⟨b, hb, hbeq⟩ := List.mem_map.mp hqrest
          have hrel := (List.pairwise_cons.mp hpw).1 b hb
          rw [hbeq] at hrel
          dsimp only at hrel
          omega
      · have := hexp (invMove m) (by rw [mv_invMove]; exact hpib)
        rwa [mv_invMove] at this

theorem bfsAux_correct (w h : ℕ) (start goal : Pos)
    (hsib : inBounds start w h) (hgib : inBounds goal w h) :
    ∀ (fuel : ℕ) (q : List (Pos × List Move)) (vis : List Pos),
      (∀ e ∈ q, follows start e.2 = e.1 ∧ e.2.length = manh start e.1 ∧
        e.1 ∈ vis) →
      q.Pairwise (fun a b => manh start a.1 ≤ manh start b.1 ∧
        manh start b.1 ≤ manh start a.1 + 1) →
      (q.map Prod.fst).Nodup →
      (∀ c2 path2 rest2, q = (c2, path2) :: rest2 →
        ∀ p, inBounds p w h → manh start p < manh start c2 → p ∈ vis) →
      (∀ p ∈ vis, p ∈ q.map Prod.fst ∨
        ∀ m : Move, inBounds (mv p m) w h → mv p m ∈ vis) →
      start ∈ vis →
      (goal ∈ q.map Prod.fst ∨ goal ∉ vis) →
      bfsMeasure w h q vis ≤ fuel →
      ∃ path, bfsAux goal [] w h fuel q vis = some path ∧
        follows start path = goal ∧ path.length = manh start goal
  | fuel, [], vis => by
    intro _ _ _ _ hcl hstart hgoal _
    exfalso
    rcases hgoal with hg | hg
    · simp at hg
    · refine hg ?_
      refine grid_closed_all w h start (fun x => x ∈ vis) hsib hstart ?_
        (manh start goal) goal (le_refl _) hgib
      intro p hp m hmib
      rcases hcl p hp with hq | hexp
      · simp at hq
      · exact hexp m hmib
  | 0, (c, path) :: rest, vis => by
    intro _ _ _ _ _ _ _ hm
    exfalso
    unfold bfsMeasure at hm
    simp at hm
  | fuel + 1, (c, path) :: rest, vis => by
    intro hq1 hpw hnd hfr hcl hstart hgoal hm
    by_cases hcg : c = goal
    · subst hcg
      obtain ⟨hfol, hlen, _⟩ := hq1 (c, path) (List.mem_cons_self _ _)
      refine ⟨path, ?_, hfol, hlen⟩
      simp only [bfsAux]
      simp
    · obtain ⟨adds, h1, h2, h3, h4, h5, h6⟩ :=
        expand_spec c path [] w h MOVES rest vis
      obtain ⟨hfol, hlen, hcvis⟩ := hq1 (c, path) (List.mem_cons_self _ _)
      have hfill : ∀ p, inBounds p w h → manh start p ≤ manh start c →
          p ∈ vis :=
        level_fill w h start hsib c path rest vis hq1 hpw
          (hfr c path rest rfl) hcl
      have hrel0 := (List.pairwise_cons.mp hpw).1
      have hadds : ∀ e ∈ adds, manh start e.1 = manh start c + 1 ∧
          follows start e.2 = e.1 ∧ e.2.length = manh start e.1 := by
        intro e he
        obtain ⟨⟨m2, _, he1, he2⟩, hib, _⟩ := h5 e he
        have hnv := h4 e he
        have hlvl : manh start e.1 = manh start c + 1 := by
          rcases manh_mv_left start c m2 with hup | hdown
          · rw [← he1] at hup
            exact hup
          · exfalso
            refine hnv (hfill e.1 hib ?_)
            rw [← he1] at hdown
            dsimp only at hlen ⊢
            omega
        refine ⟨hlvl, ?_, ?_⟩
        · rw [he2, follows_append, hfol, he1]
          rfl
        · rw [he2, List.length_append, List.length_singleton, hlvl]
          dsimp only at hlen
          omega
      have hstep : bfsAux goal [] w h (fuel + 1) ((c, path) :: rest) vis =
          bfsAux goal [] w h fuel (rest ++ adds)
            ((adds.map Prod.fst).reverse ++ vis) := by
        simp only [bfsAux]
        rw [if_neg hcg, h1, h2]
      rw [hstep]
      have hsub : (adds.map Prod.fst).toFinset ⊆
          (gridCells w h).filter (fun p => p ∉ vis) := by
        intro p hp
        rw [List.mem_toFinset] at hp
        obtain ⟨e, he, heq⟩ := List.mem_map.mp hp
        rw [Finset.mem_filter, mem_gridCells]
        exact ⟨heq ▸ (h5 e he).2.1, heq ▸ h4 e he⟩
      have hcard : unvisCard w h ((adds.map Prod.fst).reverse ++ vis) =
          unvisCard w h vis - (adds.map Prod.fst).length := by
        unfold unvisCard
        have hset : (gridCells w h).filter
            (fun p => p ∉ (adds.map Prod.fst).reverse ++ vis) =
            ((gridCells w h).filter (fun p => p ∉ vis)) \
              (adds.map Prod.fst).toFinset := by
          ext p
          simp only [Finset.mem_filter, Finset.mem_sdiff, List.mem_append,
            List.mem_reverse, List.mem_toFinset]
          tauto
        rw [hset, Finset.card_sdiff hsub, List.toFinset_card_of_nodup h3]
      have hle2 : (adds.map Prod.fst).length ≤ unvisCard w h vis := by
        have := Finset.card_le_card hsub
        rwa [List.toFinset_card_of_nodup h3] at this
      apply bfsAux_correct w h start goal hsib hgib fuel (rest ++ adds)
        ((adds.map Prod.fst).reverse ++ vis)
      · intro e he
        rcases List.mem_append.mp he with he1 | he2
        · obtain ⟨ha, hb2, hc2⟩ := hq1 e (List.mem_cons_of_mem _ he1)
          exact ⟨ha, hb2, List.mem_append_right _ hc2⟩
        · obtain ⟨_, hfo, hln⟩ := hadds e he2
          exact ⟨hfo, hln, List.mem_append_left _
            (List.mem_reverse.mpr (List.mem_map_of_mem Prod.fst he2))⟩
      · rw [List.pairwise_append]
        refine ⟨hpw.of_cons, ?_, ?_⟩
        · refine pairwise_of_mem _ adds ?_
          intro a ha b hb
          rw [(hadds a ha).1, (hadds b hb).1]
          omega
        · intro a ha b hb
          have h5a := hrel0 a ha
          dsimp only at h5a
          rw [(hadds b hb).1]
          omega
      · rw [List.map_append]
        refine List.Nodup.append ?_ h3 ?_
        · rw [List.map_cons] at hnd
          exact (List.nodup_cons.mp hnd).2
        · intro a ha hb
          obtain ⟨e, he, heq⟩ := List.mem_map.mp hb
          obtain ⟨ea, hea, heqa⟩ := List.mem_map.mp ha
          have hav : a ∈ vis := heqa ▸ (hq1 ea (List.mem_cons_of_mem _ hea)).2.2
          exact (h4 e he) (heq ▸ hav)
      · intro c2 path2 rest2 heq p hpib hplt
        have hc2mem : (c2, path2) ∈ rest ++ adds := by
          rw [heq]
          exact List.mem_cons_self _ _
        have hc2lvl : manh start c2 ≤ manh start c + 1 := by
          rcases List.mem_append.mp hc2mem with hr | ha
          · have hx := hrel0 _ hr
            dsimp only at hx
            omega
          · have hx := (hadds _ ha).1
            dsimp only at hx
            omega
        exact List.mem_append_right _ (hfill p hpib (by omega))
      · intro p hp
        rcases List.mem_append.mp hp with hp1 | hp2
        · refine Or.inl ?_
          rw [List.map_append]
          exact List.mem_append_right _ (List.mem_reverse.mp hp1)
        · rcases hcl p hp2 with hinq | hexp
          · rw [List.map_cons] at hinq
            rcases List.mem_cons.mp hinq with hpc | hpr
            · dsimp only at hpc
              subst hpc
              refine Or.inr ?_
              intro m hmib
              have h6m := h6 m (mem_MOVES m) hmib (List.not_mem_nil _)
              rwa [h2] at h6m
            · refine Or.inl ?_
              rw [List.map_append]
              exact List.mem_append_left _ hpr
          · exact Or.inr fun m hmib =>
              List.mem_append_right _ (hexp m hmib)
      · exact List.mem_append_right _ hstart
      · rcases hgoal with hg | hg
        · rw [List.map_cons] at hg
          rcases List.mem_cons.mp hg with hgc | hgr
          · exfalso
            dsimp only at hgc
            exact hcg hgc.symm
          · refine Or.inl ?_
            rw [List.map_append]
            exact List.mem_append_left _ hgr
        · by_cases hga : goal ∈ adds.map Prod.fst
          · refine Or.inl ?_
            rw [List.map_append]
            exact List.mem_append_right _ hga
          · refine Or.inr ?_
            intro hmem
            rcases List.mem_append.mp hmem with hm1 | hm2
            · exact hga (List.mem_reverse.mp hm1)
            · exact hg hm2
      · unfold bfsMeasure at hm ⊢
        rw [hcard]
        simp only [List.length_append, List.length_cons, List.length_map]
          at hm hle2 ⊢
        omega

theorem bfs_full_shortest (w h : ℕ) (start goal : Pos)
    (hs : inBounds start w h) (hg : inBounds goal w h) (hne : start ≠ goal) :
    ∃ path, bfs_full start goal [] w h = some path ∧
      follows start path = goal ∧ path.length = manh start goal := by
  unfold bfs_full
  apply bfsAux_correct w h start goal hs hg (2 * w * h + 1) [(start, [])] [start]
  · intro e he
    rw [List.mem_singleton] at he
    subst he
    exact ⟨rfl, by dsimp only [manh]; simp, List.mem_singleton_self _⟩
  · exact List.pairwise_singleton _ _
  · simp
  · intro c2 path2 rest2 heq p _ hplt
    have hc2 : c2 = start := by
      have := (List.cons.injEq _ _ _ _).mp heq.symm
      exact congrArg Prod.fst this.1
    rw [hc2] at hplt
    exfalso
    have h0 : manh start start = 0 := by dsimp only [manh]; omega
    omega
  · intro p hp
    rw [List.mem_singleton] at hp
    subst hp
    exact Or.inl (by simp)
  · exact List.mem_singleton_self _
  · refine Or.inr ?_
    intro hmem
    rw [List.mem_singleton] at hmem
    exact hne (hmem.symm)
  · unfold bfsMeasure
    have hle : unvisCard w h [start] ≤ w * h := by
      have := Finset.card_filter_le (gridCells w h) (fun p => p ∉ [start])
      rw [card_gridCells] at this
      exact this
    simp only [List.length_singleton]
    have h2 : 2 * w * h = 2 * (w * h) := by ring
    omega

/-! # Claim C6 -/

/-- C6: in an obstacle-free grid, for every in-bounds start and goal with
start distinct from goal, `bfs_path` finds a path whose length equals the
Manhattan distance, and its returned first move strictly decreases the
Manhattan distance to the goal (by exactly one); in particular on the 20x20
empty grid from (10, 10) to (15, 10) the returned first move is RIGHT. -/
theorem C6_shortest_first_move (w h : ℕ) (start goal : Pos)
    (hs : inBounds start w h) (hg : inBounds goal w h) (hne : start ≠ goal) :
    (∃ m rest, bfs_full start goal [] w h = some (m :: rest) ∧
      bfs_path start goal [] w h = some m ∧
      (m :: rest).length = manh start goal ∧
      follows start (m :: rest) = goal ∧
      manh (mv start m) goal + 1 = manh start goal) ∧
    bfs_path (10, 10) (15, 10) [] 20 20 = some Move.RIGHT := by
  constructor
  · obtain ⟨path, hb, hf, hl⟩ := bfs_full_shortest w h start goal hs hg hne
    have hpos : 1 ≤ manh start goal := by
      rcases Nat.eq_zero_or_pos (manh start goal) with h0 | h0
      · exact absurd ((manh_eq_zero start goal).mp h0) hne
      · exact h0
    match path, hl with
    | [], hl => simp at hl; omega
    | m :: rest, hl =>
      refine ⟨m, rest, hb, ?_, hl, hf, first_move_decreasing start goal m rest hf hl⟩
      unfold bfs_path
      rw [hb]
  · decide

/-- C6 witness: the theorem instantiated at the 20x20 scenario. -/
theorem C6_shortest_first_move_witness :
    (∃ m rest, bfs_full (10, 10) (15, 10) [] 20 20 = some (m :: rest) ∧
      bfs_path (10, 10) (15, 10) [] 20 20 = some m ∧
      (m :: rest).length = manh (10, 10) (15, 10) ∧
      follows (10, 10) (m :: rest) = (15, 10) ∧
      manh (mv (10, 10) m) (15, 10) + 1 = manh (10, 10) (15, 10)) ∧
    bfs_path (10, 10) (15, 10) [] 20 20 = some Move.RIGHT :=
  C6_shortest_first_move 20 20 (10, 10) (15, 10) (by decide) (by decide)
    (by decide)
